import Mathlib

/-!
# CppStrConv: validation and byte codecs of `bene::CppStrConv`

A shallow embedding of `src/CppStrConv/include/CppStrConv.h`.

* A `std::string` / `std::vector<char>` is a `List Nat` of byte values (the unsigned value of
  each 8-bit pattern, `< 256`).
* A `std::u16string` is a `List Nat` of 16-bit code units (`< 65536`), a `std::u32string` a
  `List Nat` of 32-bit code units.
* Where the signedness of plain `char` shows in the result, the function takes it as the
  parameter `charSigned`.
* A function that throws returns `Except Exception _`.
* A call that has no defined result (unbounded self-recursion, a read past the end of a
  buffer) is `none` in an `Option`.
-/

namespace bene

/-! ## Exceptions -/

/-- The `what()` text of a thrown `std::invalid_argument`. -/
inductive Reason
  /-- Message "Invalid UTF-8 sequence: overlong encoding" -/
  | overlong_encoding
  /-- Message "Invalid UTF-8 sequence: invalid start byte" -/
  | invalid_start_byte
  /-- Message "Invalid UTF-8 sequence: missing continuation byte" -/
  | missing_continuation_byte
  /-- Message "Invalid UTF-16 sequence: lone high surrogate" -/
  | lone_high_surrogate
  /-- Message "Invalid UTF-16 sequence: lone low surrogate" -/
  | lone_low_surrogate
  /-- Message "The string contains invalid UTF-32 code points." -/
  | invalid_code_points
  /-- Message "Invalid BOM for UTF-8" -/
  | invalid_bom_utf8
  /-- Message "Invalid BOM for UTF-16LE" -/
  | invalid_bom_utf16le
  /-- Message "Invalid BOM for UTF-16BE" -/
  | invalid_bom_utf16be
  /-- Message "Invalid byte vector length for UTF-32 conversion" -/
  | invalid_length_utf32
  deriving DecidableEq, Repr

/-- The exceptions that leave the library. -/
inductive Exception
  /-- A `std::invalid_argument` thrown by the library itself. -/
  | invalid_argument (what : Reason)
  /-- The `std::range_error` thrown by `std::wstring_convert` when a conversion fails. -/
  | range_error
  deriving DecidableEq, Repr

/-! ## BOM literals (lines 53-55) -/

def BOM_UTF8 : List Nat := [0xef, 0xbb, 0xbf]

def BOM_UTF16BE : List Nat := [0xfe, 0xff]

def BOM_UTF16LE : List Nat := [0xff, 0xfe]

/-- Lines 395-398: size check, then `std::equal` over the length of the literal. -/
def is_start_with_bom_u16le (bytes : List Nat) : Bool :=
  decide (bytes.length ≥ BOM_UTF16LE.length) && (bytes.take BOM_UTF16LE.length == BOM_UTF16LE)

/-- Lines 400-403. -/
def is_start_with_bom_u16be (bytes : List Nat) : Bool :=
  decide (bytes.length ≥ BOM_UTF16BE.length) && (bytes.take BOM_UTF16BE.length == BOM_UTF16BE)

/-- Lines 405-408. -/
def is_start_with_bom_u8 (bytes : List Nat) : Bool :=
  decide (bytes.length ≥ BOM_UTF8.length) && (bytes.take BOM_UTF8.length == BOM_UTF8)

/-! ## Validators (lines 410-487) -/

/-- Lines 418-448 of `validiate_u8`: the lead byte `byte = str[i]` decides how many
continuation bytes follow, or throws. `str[i + 1]` is read with `getD _ 0`: at
`i + 1 = str.size()` a `std::string` yields the terminating `'\0'`. The masks act on the low
eight bits, so the signedness of `char` does not matter. -/
def remaining_bytes (str : List Nat) (i : Nat) (byte : Nat) : Except Exception Nat :=
  if byte &&& 0x80 = 0 then
    .ok 0
  else if byte &&& 0xE0 = 0xC0 then
    if byte = 0xC0 ∨ byte = 0xC1 then
      .error (.invalid_argument .overlong_encoding)
    else
      .ok 1
  else if byte &&& 0xF0 = 0xE0 then
    if byte = 0xE0 ∧ str.getD (i + 1) 0 &&& 0xE0 = 0x80 then
      .error (.invalid_argument .overlong_encoding)
    else
      .ok 2
  else if byte &&& 0xF8 = 0xF0 then
    if byte = 0xF0 ∧ str.getD (i + 1) 0 &&& 0xF0 = 0x80 then
      .error (.invalid_argument .overlong_encoding)
    else
      .ok 3
  else
    .error (.invalid_argument .invalid_start_byte)

/-- Lines 451-456 of `validiate_u8`: the loop `for (j = 1; j <= remainingBytes; ++j)`, which
throws at the first `j` that is past the end or is not of the form `10xxxxxx`. -/
def continuation_bytes (str : List Nat) (i remainingBytes : Nat) : Except Exception Unit :=
  if (List.range' 1 remainingBytes).any
      (fun j => decide (i + j ≥ str.length) || (str.getD (i + j) 0 &&& 0xC0 != 0x80)) then
    .error (.invalid_argument .missing_continuation_byte)
  else
    .ok ()

/-- Lines 412-458: the outer loop of `validiate_u8`, entered at index `i`. -/
def validiate_u8_loop (str : List Nat) (i : Nat) : Except Exception Unit :=
  if _h : i < str.length then
    match remaining_bytes str i (str.getD i 0) with
    | .error e => .error e
    | .ok remainingBytes =>
      match continuation_bytes str i remainingBytes with
      | .error e => .error e
      | .ok _ => validiate_u8_loop str (i + remainingBytes + 1)
  else
    .ok ()
termination_by str.length - i
decreasing_by omega

/-- Lines 410-459. -/
def validiate_u8 (str : List Nat) : Except Exception Unit :=
  validiate_u8_loop str 0

/-- Lines 462-477: the loop of `validate_u16`, entered at index `i`. -/
def validate_u16_loop (str : List Nat) (i : Nat) : Except Exception Unit :=
  if _h : i < str.length then
    let c := str.getD i 0
    if c ≥ 0xD800 ∧ c ≤ 0xDBFF then
      if i + 1 ≥ str.length ∨ str.getD (i + 1) 0 < 0xDC00 ∨ str.getD (i + 1) 0 > 0xDFFF then
        .error (.invalid_argument .lone_high_surrogate)
      else
        validate_u16_loop str (i + 2)
    else if c ≥ 0xDC00 ∧ c ≤ 0xDFFF then
      .error (.invalid_argument .lone_low_surrogate)
    else
      validate_u16_loop str (i + 1)
  else
    .ok ()
termination_by str.length - i
decreasing_by all_goals omega

/-- Lines 461-478. -/
def validate_u16 (str : List Nat) : Except Exception Unit :=
  validate_u16_loop str 0

/-! ## The standard-library converter used by `u16_to_u8` and `u8_to_u16` -/

/-- Modelled from the spec: the shortest-form UTF-8 encoding of a scalar value (glossary,
"Overlong encoding: a UTF-8 byte sequence using more bytes than the minimum required for its
scalar value"; section 8, U+1F600 encodes to `F0 9F 98 80`). The repository has no encoder of
its own: it calls `std::codecvt_utf8_utf16`. -/
def utf8_encode (c : Nat) : List Nat :=
  if c < 0x80 then [c]
  else if c < 0x800 then [0xC0 + c / 0x40, 0x80 + c % 0x40]
  else if c < 0x10000 then [0xE0 + c / 0x1000, 0x80 + c / 0x40 % 0x40, 0x80 + c % 0x40]
  else [0xF0 + c / 0x40000, 0x80 + c / 0x1000 % 0x40, 0x80 + c / 0x40 % 0x40, 0x80 + c % 0x40]

/-- Modelled from the spec: the UTF-16 form of a scalar value (section 4.2 and glossary,
"Surrogate pair": a scalar `≥ 0x10000` becomes a high unit in `0xD800-0xDBFF` and a low unit in
`0xDC00-0xDFFF`; section 8, U+1F600 becomes `D83D DE00`). -/
def utf16_encode (c : Nat) : List Nat :=
  if c < 0x10000 then [c]
  else [0xD800 + (c - 0x10000) / 0x400, 0xDC00 + (c - 0x10000) % 0x400]

/-- Modelled from the spec: `std::wstring_convert<std::codecvt_utf8_utf16<char16_t>>::to_bytes`,
the C++ standard-library call in the body of `u16_to_u8` (lines 66-67; the `_WIN32` branch
makes the same call on `int16_t`). Section 4.2: "surrogate pairs in the UTF-16 input combine
into one scalar value ≥0x10000 before UTF-8 encoding". An unpaired surrogate cannot be
converted; `wstring_convert` reports that with `std::range_error`. -/
def codecvt_to_bytes : List Nat → Except Exception (List Nat)
  | [] => .ok []
  | c :: rest =>
    if 0xD800 ≤ c ∧ c ≤ 0xDBFF then
      match rest with
      | [] => .error .range_error
      | d :: rest2 =>
        if 0xDC00 ≤ d ∧ d ≤ 0xDFFF then
          match codecvt_to_bytes rest2 with
          | .error e => .error e
          | .ok tail => .ok (utf8_encode (0x10000 + (c - 0xD800) * 0x400 + (d - 0xDC00)) ++ tail)
        else
          .error .range_error
    else if 0xDC00 ≤ c ∧ c ≤ 0xDFFF then
      .error .range_error
    else
      match codecvt_to_bytes rest with
      | .error e => .error e
      | .ok tail => .ok (utf8_encode c ++ tail)

/-- Modelled from the spec: one step of the standard-library UTF-8 decoder. From the lead byte
`b0` and the bytes after it, the scalar value of the first well-formed run and the number of
continuation bytes it took; `none` when the run is truncated, has a bad lead or continuation
byte, is overlong, is a surrogate or exceeds `0x10FFFF`. -/
def utf8_decode_one (b0 : Nat) (rest : List Nat) : Option (Nat × Nat) :=
  let cont : Nat → Bool := fun k =>
    decide (k < rest.length) && decide (0x80 ≤ rest.getD k 0) && decide (rest.getD k 0 ≤ 0xBF)
  let x : Nat → Nat := fun k => rest.getD k 0 - 0x80
  if b0 < 0x80 then
    some (b0, 0)
  else if 0xC2 ≤ b0 ∧ b0 ≤ 0xDF ∧ cont 0 then
    some ((b0 - 0xC0) * 0x40 + x 0, 1)
  else if 0xE0 ≤ b0 ∧ b0 ≤ 0xEF ∧ cont 0 ∧ cont 1 then
    let c := (b0 - 0xE0) * 0x1000 + x 0 * 0x40 + x 1
    if 0x800 ≤ c ∧ ¬ (0xD800 ≤ c ∧ c ≤ 0xDFFF) then some (c, 2) else none
  else if 0xF0 ≤ b0 ∧ b0 ≤ 0xF4 ∧ cont 0 ∧ cont 1 ∧ cont 2 then
    let c := (b0 - 0xF0) * 0x40000 + x 0 * 0x1000 + x 1 * 0x40 + x 2
    if 0x10000 ≤ c ∧ c ≤ 0x10FFFF then some (c, 3) else none
  else
    none

/-- Modelled from the spec:
`std::wstring_convert<std::codecvt_utf8_utf16<char16_t>>::from_bytes`, the C++ standard-library
call in the body of `u8_to_u16` (lines 91-92). Section 4.2: "a UTF-8 4-byte sequence decoding to
a scalar ≥0x10000 expands to a surrogate pair in UTF-16 output". A run that does not decode
makes `wstring_convert` throw `std::range_error`. -/
def codecvt_from_bytes : List Nat → Except Exception (List Nat)
  | [] => .ok []
  | b0 :: rest =>
    match utf8_decode_one b0 rest with
    | none => .error .range_error
    | some (c, n) =>
      match codecvt_from_bytes (rest.drop n) with
      | .error e => .error e
      | .ok tail => .ok (utf16_encode c ++ tail)
termination_by bytes => bytes.length
decreasing_by simp; omega

/-! ## Unicode converter (lines 59-94) -/

/-- Lines 59-69. -/
def u16_to_u8 (str : List Nat) : Except Exception (List Nat) :=
  match validate_u16 str with
  | .error e => .error e
  | .ok _ => codecvt_to_bytes str

/-- Lines 83-94. -/
def u8_to_u16 (str : List Nat) : Except Exception (List Nat) :=
  match validiate_u8 str with
  | .error e => .error e
  | .ok _ => codecvt_from_bytes str

/-! ## Byte codec (lines 199-252, 301-347) -/

/-- The effect of `bytes.resize(length)` on a fresh `std::vector<char>`: `length` zero bytes. -/
def resize (length : Nat) : List Nat :=
  List.replicate length 0

/-- The effect of `std::copy(src.begin(), src.end(), dst.begin() + offset)` on `dst`, whose
size is at least `offset + src.size()` at every call site. -/
def copy (src dst : List Nat) (offset : Nat) : List Nat :=
  dst.take offset ++ src ++ dst.drop (offset + src.length)

/-- Lines 199-211. -/
def u16_to_u8_bytes (str : List Nat) (addBom : Bool) : Except Exception (List Nat) :=
  match u16_to_u8 str with
  | .error e => .error e
  | .ok u8str =>
    let offset := if addBom then BOM_UTF8.length else 0
    let length := u8str.length + offset
    let bytes := resize length
    let bytes := if addBom then copy BOM_UTF8 bytes 0 else bytes
    .ok (copy u8str bytes offset)

/-- Lines 218-234. The loop writes through `ptr`, here an index into `bytes`; the stored
values are the low eight bits. -/
def u16_to_u16be_bytes (str : List Nat) (addBom : Bool) : Except Exception (List Nat) :=
  match validate_u16 str with
  | .error e => .error e
  | .ok _ =>
    let offset := if addBom then BOM_UTF16BE.length else 0
    let length := str.length * 2 + offset
    let bytes := resize length
    let bytes := if addBom then copy BOM_UTF16BE bytes 0 else bytes
    .ok (str.foldl
      (fun (st : List Nat × Nat) c =>
        (((st.1.set st.2 ((c >>> 8) &&& 0xff)).set (st.2 + 1) (c &&& 0xff)), st.2 + 2))
      (bytes, offset)).1

/-- Lines 213-216; the default argument `addBom = false` is passed explicitly by callers. -/
def u16_to_u16_bytes (str : List Nat) (addBom : Bool) : Except Exception (List Nat) :=
  u16_to_u16be_bytes str addBom

/-- Lines 236-252. Line 244 copies `BOM_UTF16BE`. -/
def u16_to_u16le_bytes (str : List Nat) (addBom : Bool) : Except Exception (List Nat) :=
  match validate_u16 str with
  | .error e => .error e
  | .ok _ =>
    let offset := if addBom then BOM_UTF16LE.length else 0
    let length := str.length * 2 + offset
    let bytes := resize length
    let bytes := if addBom then copy BOM_UTF16BE bytes 0 else bytes
    .ok (str.foldl
      (fun (st : List Nat × Nat) c =>
        (((st.1.set st.2 (c &&& 0xff)).set (st.2 + 1) ((c >>> 8) &&& 0xff)), st.2 + 2))
      (bytes, offset)).1

/-- Lines 301-313. The function calls itself in its first and in its last branch (lines 305
and 311) and nowhere calls `u8_to_u16`, so the recursion is unbounded; `fuel` bounds the depth
of the calls and `none` says that the depth was exceeded. -/
def u8_bytes_to_u16 : Nat → List Nat → Option (Except Exception (List Nat))
  | 0, _ => none
  | fuel + 1, bytes =>
    if is_start_with_bom_u8 bytes then
      u8_bytes_to_u16 fuel (bytes.drop BOM_UTF8.length)
    else if is_start_with_bom_u16le bytes then
      some (.error (.invalid_argument .invalid_bom_utf16le))
    else if is_start_with_bom_u16be bytes then
      some (.error (.invalid_argument .invalid_bom_utf16be))
    else
      u8_bytes_to_u16 fuel bytes

/-- Lines 331-343. `static_cast<char16_t>` keeps the low sixteen bits. -/
def u16be_bytes_to_u16 (bytes : List Nat) : List Nat :=
  (List.range (bytes.length / 2)).map fun i =>
    ((bytes.getD (i * 2) 0 <<< 8) ||| bytes.getD (i * 2 + 1) 0) % 0x10000

/-- Lines 345-347. `std::u16string(const char16_t*)` reads 16-bit units from the start of the
buffer (on a little-endian host: low byte first) up to the first unit that is zero and does not
look at `bytes.size()`. When no zero unit lies inside the buffer the read runs past its end,
which has no defined result: `none`. -/
def u16le_bytes_to_u16 : List Nat → Option (List Nat)
  | lo :: hi :: rest =>
    if lo + 0x100 * hi = 0 then
      some []
    else
      match u16le_bytes_to_u16 rest with
      | none => none
      | some tail => some ((lo + 0x100 * hi) :: tail)
  | _ => none

/-- Lines 315-329. -/
def u16_bytes_to_u16 (bytes : List Nat) : Option (Except Exception (List Nat)) :=
  if is_start_with_bom_u8 bytes then
    some (.error (.invalid_argument .invalid_bom_utf8))
  else if is_start_with_bom_u16le bytes then
    (u16le_bytes_to_u16 (bytes.drop BOM_UTF16LE.length)).map .ok
  else if is_start_with_bom_u16be bytes then
    some (.ok (u16be_bytes_to_u16 (bytes.drop BOM_UTF16BE.length)))
  else
    some (.ok (u16be_bytes_to_u16 bytes))

/-! ## UTF-32 (lines 71-115, 254-266, 366-384, 480-487) -/

/-- Lines 480-487: the range-based `for` over the units, which throws at the first unit above
`0x10FFFF`. -/
def validate_u32 : List Nat → Except Exception Unit
  | [] => .ok ()
  | ch :: rest =>
    if ch > 0x10FFFF then
      .error (.invalid_argument .invalid_code_points)
    else
      validate_u32 rest

/-- Modelled from the spec: `std::wstring_convert<std::codecvt_utf8<char32_t>>::to_bytes`, the
C++ standard-library call in the body of `u32_to_u8` (lines 78-79; the `_WIN32` branch makes
the same call on `int32_t`). Section 4.2 defines UTF-32 to UTF-8 directly: each scalar value
becomes its shortest-form UTF-8 run. A unit that is a surrogate or exceeds `0x10FFFF` has no
UTF-8 form; `wstring_convert` reports that with `std::range_error`. -/
def codecvt_utf8_to_bytes : List Nat → Except Exception (List Nat)
  | [] => .ok []
  | c :: rest =>
    if c > 0x10FFFF ∨ (0xD800 ≤ c ∧ c ≤ 0xDFFF) then
      .error .range_error
    else
      match codecvt_utf8_to_bytes rest with
      | .error e => .error e
      | .ok tail => .ok (utf8_encode c ++ tail)

/-- Modelled from the spec: `std::wstring_convert<std::codecvt_utf8<char32_t>>::from_bytes`,
the C++ standard-library call in the body of `u8_to_u32` (lines 104-105): each well-formed
UTF-8 run becomes the scalar value it encodes. A run that does not decode makes
`wstring_convert` throw `std::range_error`. -/
def codecvt_utf8_from_bytes : List Nat → Except Exception (List Nat)
  | [] => .ok []
  | b0 :: rest =>
    match utf8_decode_one b0 rest with
    | none => .error .range_error
    | some (c, n) =>
      match codecvt_utf8_from_bytes (rest.drop n) with
      | .error e => .error e
      | .ok tail => .ok (c :: tail)
termination_by bytes => bytes.length
decreasing_by simp; omega

/-- Lines 71-81. -/
def u32_to_u8 (str : List Nat) : Except Exception (List Nat) :=
  match validate_u32 str with
  | .error e => .error e
  | .ok _ => codecvt_utf8_to_bytes str

/-- Lines 96-107. -/
def u8_to_u32 (str : List Nat) : Except Exception (List Nat) :=
  match validiate_u8 str with
  | .error e => .error e
  | .ok _ => codecvt_utf8_from_bytes str

/-- Lines 109-111: `u8_to_u16(u32_to_u8(str))`. -/
def u32_to_u16 (str : List Nat) : Except Exception (List Nat) :=
  match u32_to_u8 str with
  | .error e => .error e
  | .ok u8str => u8_to_u16 u8str

/-- Lines 113-115: `u8_to_u32(u16_to_u8(str))`. -/
def u16_to_u32 (str : List Nat) : Except Exception (List Nat) :=
  match u16_to_u8 str with
  | .error e => .error e
  | .ok u8str => u8_to_u32 u8str

/-- Lines 254-266. The loop writes at `index`, which it advances four times per unit; the
stored values are the low eight bits. -/
def u32_to_u32_bytes (str : List Nat) : Except Exception (List Nat) :=
  match validate_u32 str with
  | .error e => .error e
  | .ok _ =>
    let bytes := resize (str.length * 4)
    .ok (str.foldl
      (fun (st : List Nat × Nat) c =>
        (((((st.1.set st.2 ((c >>> 24) &&& 0xFF)).set (st.2 + 1) ((c >>> 16) &&& 0xFF)).set
          (st.2 + 2) ((c >>> 8) &&& 0xFF)).set (st.2 + 3) (c &&& 0xFF)), st.2 + 4))
      (bytes, 0)).1

/-- Lines 366-384. Past the length check `bytes.size()` is a multiple of four, so the loop
`for (i = 0; i < bytes.size(); i += 4)` runs `bytes.size() / 4` times, at `i = 0, 4, 8, ...`.
Each `unsigned char` is shifted as an `int` and the result is stored in a `char32_t`, which
keeps the low thirty-two bits. -/
def u32_bytes_to_u32 (bytes : List Nat) : Except Exception (List Nat) :=
  if bytes.length % 4 ≠ 0 then
    .error (.invalid_argument .invalid_length_utf32)
  else
    let result := resize (bytes.length / 4)
    .ok ((List.range' 0 (bytes.length / 4) 4).foldl
      (fun result i =>
        result.set (i / 4)
          (((bytes.getD i 0 <<< 24) ||| (bytes.getD (i + 1) 0 <<< 16) |||
            (bytes.getD (i + 2) 0 <<< 8) ||| bytes.getD (i + 3) 0) % 0x100000000))
      result)

/-! ## Legacy encodings (lines 273-291, 349-364) -/

/-- The value of a `char` after integral promotion, as a 32-bit two's-complement pattern.
Whether plain `char` is signed is fixed by the platform (`charSigned`): a signed `char` with
its high bit set is negative and is sign-extended. -/
def char_to_int (charSigned : Bool) (ch : Nat) : Nat :=
  if charSigned && decide (0x80 ≤ ch) then ch + 0xFFFFFF00 else ch

/-- Lines 273-281. `static_cast<char>` keeps the low eight bits; `'?'` is `0x3F`. -/
def u16_to_us_ascii_bytes (str : List Nat) : List Nat :=
  let length := str.length
  (List.range length).foldl
    (fun bytes i => bytes.set i (if str.getD i 0 ≤ 0x7F then str.getD i 0 % 0x100 else 0x3F))
    (resize length)

/-- Lines 283-291. -/
def u16_to_iso_8859_1_bytes (str : List Nat) : List Nat :=
  let length := str.length
  (List.range length).foldl
    (fun bytes i => bytes.set i (if str.getD i 0 ≤ 0xff then str.getD i 0 % 0x100 else 0x3F))
    (resize length)

/-- Lines 349-353. `u16str.assign(bytes.begin(), bytes.end())` converts each `char` to
`char16_t`: the value of the `char`, signed or not as the platform has it, reduced modulo
`2^16`. -/
def us_ascii_bytes_to_u16 (charSigned : Bool) (bytes : List Nat) : List Nat :=
  bytes.map fun ch => char_to_int charSigned ch % 0x10000

/-- Lines 355-364. `bytes[i] & 0xff` masks the promoted `char`. -/
def iso_8859_1_bytes_to_u16 (charSigned : Bool) (bytes : List Nat) : List Nat :=
  let length := bytes.length
  (List.range length).foldl
    (fun u16str i => u16str.set i ((char_to_int charSigned (bytes.getD i 0) &&& 0xff) % 0x10000))
    (resize length)

/-! ## Specification-side notions -/

/-- A sequence of 16-bit code units: what a `std::u16string` can hold. -/
def IsU16String (S : List Nat) : Prop :=
  ∀ u ∈ S, u < 0x10000

instance : DecidablePred IsU16String :=
  fun S => inferInstanceAs (Decidable (∀ u ∈ S, u < 0x10000))

/-- A sequence of bytes: what a `std::string` or `std::vector<char>` can hold. -/
def IsByteString (s : List Nat) : Prop :=
  ∀ b ∈ s, b < 0x100

instance : DecidablePred IsByteString :=
  fun s => inferInstanceAs (Decidable (∀ b ∈ s, b < 0x100))

/-- A high surrogate, `0xD800-0xDBFF`. -/
def IsHighSurrogate (u : Nat) : Prop :=
  0xD800 ≤ u ∧ u ≤ 0xDBFF

instance : DecidablePred IsHighSurrogate :=
  fun u => inferInstanceAs (Decidable (0xD800 ≤ u ∧ u ≤ 0xDBFF))

/-- A low surrogate, `0xDC00-0xDFFF`. -/
def IsLowSurrogate (u : Nat) : Prop :=
  0xDC00 ≤ u ∧ u ≤ 0xDFFF

instance : DecidablePred IsLowSurrogate :=
  fun u => inferInstanceAs (Decidable (0xDC00 ≤ u ∧ u ≤ 0xDFFF))

/-- One element of a well-formed UTF-16 sequence: a single non-surrogate unit, or a high
surrogate followed by a low surrogate. -/
def IsUtf16Chunk (ch : List Nat) : Prop :=
  (∃ u, ch = [u] ∧ ¬ IsHighSurrogate u ∧ ¬ IsLowSurrogate u) ∨
  (∃ h l, ch = [h, l] ∧ IsHighSurrogate h ∧ IsLowSurrogate l)

/-- Well-formed UTF-16: a concatenation of non-surrogate units and (high, low) pairs. -/
def WellFormedUtf16 (S : List Nat) : Prop :=
  ∃ chunks : List (List Nat), (∀ ch ∈ chunks, IsUtf16Chunk ch) ∧ S = chunks.flatten

/-- Well-formed UTF-8 as claim C1 words it: the concatenation of the shortest-form encodings
of scalar values, each an integer in `[0, 0x10FFFF]`. -/
def WellFormedUtf8 (s : List Nat) : Prop :=
  ∃ cps : List Nat, (∀ c ∈ cps, c ≤ 0x10FFFF) ∧ s = cps.flatMap utf8_encode

/-- A Unicode scalar value: at most `0x10FFFF` and not a surrogate. -/
def IsScalarValue (c : Nat) : Prop :=
  c ≤ 0x10FFFF ∧ ¬ (0xD800 ≤ c ∧ c ≤ 0xDFFF)

instance : DecidablePred IsScalarValue :=
  fun c => inferInstanceAs (Decidable (c ≤ 0x10FFFF ∧ ¬ (0xD800 ≤ c ∧ c ≤ 0xDFFF)))

/-- The direct UTF-32 to UTF-16 encoding as claim C16 words it: a scalar below `0x10000` is
one unit; a scalar `c` in `[0x10000, 0x10FFFF]` is the pair
`0xD800 + ((c - 0x10000) >> 10)`, `0xDC00 + ((c - 0x10000) & 0x3FF)`. -/
def utf32_to_utf16_direct (c : Nat) : List Nat :=
  if c < 0x10000 then [c]
  else [0xD800 + ((c - 0x10000) >>> 10), 0xDC00 + ((c - 0x10000) &&& 0x3FF)]

/-- The number of continuation bytes that the run of lead byte `b` needs (section 4.1: the
high-bit pattern of the lead byte gives a run of 1, 2, 3 or 4 bytes). -/
def run_continuations (b : Nat) : Nat :=
  if b < 0x80 then 0 else if b < 0xE0 then 1 else if b < 0xF0 then 2 else 3

/-- The run of lead byte `b`, followed in the input by the bytes `R`, is complete: each of its
continuation bytes is there and has the form `10xxxxxx`. -/
def run_complete (b : Nat) (R : List Nat) : Prop :=
  ∀ j, j < run_continuations b → j < R.length ∧ 0x80 ≤ R.getD j 0 ∧ R.getD j 0 ≤ 0xBF

instance (b : Nat) (R : List Nat) : Decidable (run_complete b R) :=
  inferInstanceAs (Decidable
    (∀ j, j < run_continuations b → j < R.length ∧ 0x80 ≤ R.getD j 0 ∧ R.getD j 0 ≤ 0xBF))

/-- The input `R` after a lead byte begins with a byte in `[lo, hi]`. -/
def followed_by (R : List Nat) (lo hi : Nat) : Bool :=
  match R with
  | [] => false
  | c :: _ => decide (lo ≤ c ∧ c ≤ hi)

/-- The reason claim C20 gives for rejecting the run of lead byte `b` followed by `R`, and
`none` when the run is not rejected: invalid start byte for a lead in `80-BF` or `F8-FF`;
overlong encoding for a lead `C0` or `C1`, for `E0` followed by a byte in `80-9F` and for `F0`
followed by a byte in `80-8F`; missing continuation byte for any other run that is not
complete. -/
def run_reason (b : Nat) (R : List Nat) : Option Reason :=
  if (0x80 ≤ b ∧ b ≤ 0xBF) ∨ (0xF8 ≤ b ∧ b ≤ 0xFF) then
    some .invalid_start_byte
  else if b = 0xC0 ∨ b = 0xC1 ∨ (b = 0xE0 ∧ followed_by R 0x80 0x9F) ∨
      (b = 0xF0 ∧ followed_by R 0x80 0x8F) then
    some .overlong_encoding
  else if run_complete b R then
    none
  else
    some .missing_continuation_byte

/-- A run that is not rejected, with exactly its continuation bytes. -/
def IsAcceptedRun (run : List Nat) : Prop :=
  ∃ b R, run = b :: R ∧ R.length = run_continuations b ∧ run_reason b R = none

/-- A concatenation of runs none of which is rejected: what the scan has passed over when it
reaches the first rejected run. -/
def AcceptedRuns (P : List Nat) : Prop :=
  ∃ runs : List (List Nat), (∀ run ∈ runs, IsAcceptedRun run) ∧ P = runs.flatten

/-- The 16-bit units that a byte buffer of even length spells, high byte first: unit `i` is
`X[2i] * 256 + X[2i+1]`. -/
def big_endian_units (X : List Nat) : List Nat :=
  (List.range (X.length / 2)).map fun i => X.getD (2 * i) 0 * 0x100 + X.getD (2 * i + 1) 0

/-! ## The UTF-8 validator read on the unread remainder -/

theorem remaining_bytes_cons (a : Nat) (str : List Nat) (i b : Nat) :
    remaining_bytes (a :: str) (i + 1) b = remaining_bytes str i b := by
  simp [remaining_bytes]

theorem continuation_bytes_cons (a : Nat) (str : List Nat) (i r : Nat) :
    continuation_bytes (a :: str) (i + 1) r = continuation_bytes str i r := by
  have h : ∀ j, i + 1 + j = (i + j) + 1 := by intro j; omega
  simp only [continuation_bytes, h, List.getD_cons_succ, List.length_cons, ge_iff_le,
    Nat.add_le_add_iff_right]

theorem validiate_u8_loop_cons (a : Nat) (str : List Nat) (i : Nat) :
    validiate_u8_loop (a :: str) (i + 1) = validiate_u8_loop str i := by
  generalize h : str.length - i = n
  induction n using Nat.strong_induction_on generalizing i with
  | _ n ih =>
    rw [validiate_u8_loop, validiate_u8_loop.eq_1 str i]
    simp only [List.length_cons, Nat.add_lt_add_iff_right, List.getD_cons_succ,
      remaining_bytes_cons, continuation_bytes_cons]
    split
    · rename_i hlt
      split
      · rfl
      · rename_i r _
        split
        · rfl
        · have := ih (str.length - (i + r + 1)) (by omega) (i + r + 1) rfl
          rw [← this]
          congr 1
          omega
    · rfl

theorem validiate_u8_loop_drop (str : List Nat) (i : Nat) :
    validiate_u8_loop str i = validiate_u8_loop (str.drop i) 0 := by
  induction i generalizing str with
  | zero => simp
  | succ i ih =>
    cases str with
    | nil => rw [validiate_u8_loop, validiate_u8_loop]; simp
    | cons a t => rw [validiate_u8_loop_cons, ih]; simp

theorem validiate_u8_nil : validiate_u8 [] = .ok () := by
  rw [validiate_u8, validiate_u8_loop]; simp

theorem validiate_u8_cons (b : Nat) (rest : List Nat) :
    validiate_u8 (b :: rest) =
      match remaining_bytes (b :: rest) 0 b with
      | .error e => .error e
      | .ok r =>
        match continuation_bytes (b :: rest) 0 r with
        | .error e => .error e
        | .ok _ => validiate_u8 (rest.drop r) := by
  rw [validiate_u8, validiate_u8_loop]
  simp only [List.length_cons, Nat.zero_lt_succ, ↓reduceDIte, List.getD_cons_zero, Nat.zero_add]
  split
  · rfl
  · split
    · rfl
    · rw [validiate_u8_loop_cons, validiate_u8_loop_drop, validiate_u8]

/-! ## Bit masks on bytes, as comparisons -/

set_option maxRecDepth 100000 in
theorem land_masks : ∀ b < 256,
    (b &&& 0x80 = 0 ↔ b < 0x80) ∧ (b &&& 0xE0 = 0xC0 ↔ 0xC0 ≤ b ∧ b < 0xE0) ∧
    (b &&& 0xF0 = 0xE0 ↔ 0xE0 ≤ b ∧ b < 0xF0) ∧ (b &&& 0xF8 = 0xF0 ↔ 0xF0 ≤ b ∧ b < 0xF8) ∧
    (b &&& 0xE0 = 0x80 ↔ 0x80 ≤ b ∧ b < 0xA0) ∧ (b &&& 0xF0 = 0x80 ↔ 0x80 ≤ b ∧ b < 0x90) ∧
    (b &&& 0xC0 = 0x80 ↔ 0x80 ≤ b ∧ b < 0xC0) := by
  decide

theorem remaining_bytes_eq (str : List Nat) (i b : Nat) (hb : b < 256)
    (hn : b = 0xE0 ∨ b = 0xF0 → str.getD (i + 1) 0 < 256) :
    remaining_bytes str i b =
      if b < 0x80 then .ok 0
      else if b < 0xC0 then .error (.invalid_argument .invalid_start_byte)
      else if b < 0xC2 then .error (.invalid_argument .overlong_encoding)
      else if b < 0xE0 then .ok 1
      else if b < 0xF0 then
        if b = 0xE0 ∧ 0x80 ≤ str.getD (i + 1) 0 ∧ str.getD (i + 1) 0 < 0xA0 then
          .error (.invalid_argument .overlong_encoding)
        else .ok 2
      else if b < 0xF8 then
        if b = 0xF0 ∧ 0x80 ≤ str.getD (i + 1) 0 ∧ str.getD (i + 1) 0 < 0x90 then
          .error (.invalid_argument .overlong_encoding)
        else .ok 3
      else .error (.invalid_argument .invalid_start_byte) := by
  obtain ⟨h1, h2, h3, h4, -, -, -⟩ := land_masks b hb
  unfold remaining_bytes
  simp only [h1, h2, h3, h4]
  by_cases hlead : b = 0xE0 ∨ b = 0xF0
  case neg =>
    have e1 : ¬ b = 0xE0 := fun h => hlead (Or.inl h)
    have e2 : ¬ b = 0xF0 := fun h => hlead (Or.inr h)
    simp only [e1, e2, false_and, if_false]
    split_ifs <;> first | rfl | omega
  obtain ⟨-, -, -, -, h5, h6, -⟩ := land_masks _ (hn hlead)
  simp only [h5, h6]
  generalize str.getD (i + 1) 0 = nx
  by_cases c1 : b < 0x80
  · simp [c1]
  by_cases c2 : b < 0xC0
  · rw [if_neg c1, if_neg c1, if_pos c2, if_neg (by omega), if_neg (by omega), if_neg (by omega)]
  by_cases c3 : b < 0xC2
  · rw [if_neg c1, if_neg c1, if_neg c2, if_pos c3, if_pos (by omega), if_pos (by omega)]
  by_cases c4 : b < 0xE0
  · rw [if_neg c1, if_neg c1, if_neg c2, if_neg c3, if_pos c4, if_pos (by omega),
      if_neg (by omega)]
  by_cases c5 : b < 0xF0
  · rw [if_neg c1, if_neg c1, if_neg c2, if_neg c3, if_neg c4, if_pos c5, if_neg (by omega),
      if_pos (by omega)]
  by_cases c6 : b < 0xF8
  · rw [if_neg c1, if_neg c1, if_neg c2, if_neg c3, if_neg c4, if_neg c5, if_pos c6,
      if_neg (by omega), if_neg (by omega), if_pos (by omega)]
  · rw [if_neg c1, if_neg c1, if_neg c2, if_neg c3, if_neg c4, if_neg c5, if_neg c6,
      if_neg (by omega), if_neg (by omega), if_neg (by omega)]

theorem continuation_bytes_eq (str : List Nat) (i r : Nat)
    (h : ∀ j, 1 ≤ j → j ≤ r → i + j < str.length ∧ 0x80 ≤ str.getD (i + j) 0 ∧
      str.getD (i + j) 0 < 0xC0) :
    continuation_bytes str i r = .ok () := by
  unfold continuation_bytes
  rw [if_neg]
  simp only [List.any_eq_true, not_exists, not_and, List.mem_range'_1]
  intro j hj
  obtain ⟨h1, h2, h3⟩ := h j hj.1 (by omega)
  obtain ⟨-, -, -, -, -, -, h7⟩ := land_masks _ (show str.getD (i + j) 0 < 256 by omega)
  rw [h7.mpr ⟨h2, h3⟩]
  simp only [ge_iff_le, bne_self_eq_false, Bool.or_false, decide_eq_true_eq, not_le]
  exact h1


theorem validiate_u8_encode (c : Nat) (hc : c ≤ 0x1FFFFF) (t : List Nat) :
    validiate_u8 (utf8_encode c ++ t) = validiate_u8 t := by
  unfold utf8_encode
  split_ifs with h1 h2 h3
  · rw [List.singleton_append, validiate_u8_cons, remaining_bytes_eq _ _ _ (by omega) (by omega)]
    simp [h1, continuation_bytes]
  · simp only [List.cons_append, List.nil_append]
    rw [validiate_u8_cons, remaining_bytes_eq _ _ _ (by omega) (by omega)]
    rw [if_neg (by omega), if_neg (by omega), if_neg (by omega), if_pos (by omega)]
    simp only
    rw [continuation_bytes_eq]
    · simp
    · intro j hj1 hj2
      obtain rfl : j = 1 := by omega
      simp
      omega
  · simp only [List.cons_append, List.nil_append]
    rw [validiate_u8_cons, remaining_bytes_eq _ _ _ (by omega) (by intro; simp; omega)]
    rw [if_neg (by omega), if_neg (by omega), if_neg (by omega), if_neg (by omega),
      if_pos (by omega), if_neg (by simp; omega)]
    simp only
    rw [continuation_bytes_eq]
    · simp
    · intro j hj1 hj2
      obtain rfl | rfl : j = 1 ∨ j = 2 := by omega
      · simp; omega
      · simp; omega
  · simp only [List.cons_append, List.nil_append]
    rw [validiate_u8_cons, remaining_bytes_eq _ _ _ (by omega) (by intro; simp; omega)]
    rw [if_neg (by omega), if_neg (by omega), if_neg (by omega), if_neg (by omega),
      if_neg (by omega), if_pos (by omega), if_neg (by simp; omega)]
    simp only
    rw [continuation_bytes_eq]
    · simp
    · intro j hj1 hj2
      obtain rfl | rfl | rfl : j = 1 ∨ j = 2 ∨ j = 3 := by omega
      · simp; omega
      · simp; omega
      · simp; omega

/-! ## C1, C2: what `validiate_u8` accepts -/

/-- C1 (the code departs from it): the validator accepts the four bytes `F4 90 80 80`, the
4-byte pattern of the integer `0x110000`, although that byte string is not a concatenation of
shortest-form encodings of integers in `[0, 0x10FFFF]`. -/
theorem validiate_u8_accepts_above_max :
    IsByteString [0xF4, 0x90, 0x80, 0x80] ∧
    validiate_u8 [0xF4, 0x90, 0x80, 0x80] = .ok () ∧
    ¬ WellFormedUtf8 [0xF4, 0x90, 0x80, 0x80] := by
  refine ⟨by decide, ?_, ?_⟩
  · have h := validiate_u8_encode 0x110000 (by decide) []
    rw [validiate_u8_nil] at h
    exact h
  · rintro ⟨cps, hall, heq⟩
    cases cps with
    | nil => simp at heq
    | cons c cs =>
      have hc : c ≤ 0x10FFFF := hall c (List.mem_cons_self _ _)
      rw [List.flatMap_cons] at heq
      unfold utf8_encode at heq
      split_ifs at heq with h1 h2 h3
      · simp at heq; omega
      · simp at heq; omega
      · simp at heq; omega
      · simp at heq; omega

/-- C2: the validator accepts the shortest-form UTF-8 encoding of every sequence of scalar
values (at most `0x10FFFF`, not surrogates); and a 3-byte run `E0 A0..BF xx` or a 4-byte run
`F0 90..BF xx xx` with continuation bytes `xx` is passed over, not reported as overlong:
validation goes on with the bytes after the run. -/
theorem validiate_u8_accepts_well_formed (cps : List Nat) (h : ∀ c ∈ cps, IsScalarValue c) :
    validiate_u8 (cps.flatMap utf8_encode) = .ok () ∧
    (∀ b2 b3 rest, 0xA0 ≤ b2 → b2 ≤ 0xBF → 0x80 ≤ b3 → b3 ≤ 0xBF →
      validiate_u8 (0xE0 :: b2 :: b3 :: rest) = validiate_u8 rest) ∧
    (∀ b2 b3 b4 rest, 0x90 ≤ b2 → b2 ≤ 0xBF → 0x80 ≤ b3 → b3 ≤ 0xBF → 0x80 ≤ b4 → b4 ≤ 0xBF →
      validiate_u8 (0xF0 :: b2 :: b3 :: b4 :: rest) = validiate_u8 rest) := by
  refine ⟨?_, ?_, ?_⟩
  · induction cps with
    | nil => exact validiate_u8_nil
    | cons c cs ih =>
      have hc : c ≤ 0x1FFFFF := by have := (h c (List.mem_cons_self _ _)).1; omega
      rw [List.flatMap_cons, validiate_u8_encode c hc]
      exact ih (fun d hd => h d (List.mem_cons_of_mem _ hd))
  · intro b2 b3 rest h1 h2 h3 h4
    rw [validiate_u8_cons, remaining_bytes_eq _ _ _ (by omega) (by intro; simp; omega)]
    rw [if_neg (by omega), if_neg (by omega), if_neg (by omega), if_neg (by omega),
      if_pos (by omega), if_neg (by simp; omega)]
    simp only
    rw [continuation_bytes_eq]
    · simp
    · intro j hj1 hj2
      obtain rfl | rfl : j = 1 ∨ j = 2 := by omega
      · simp; omega
      · simp; omega
  · intro b2 b3 b4 rest h1 h2 h3 h4 h5 h6
    rw [validiate_u8_cons, remaining_bytes_eq _ _ _ (by omega) (by intro; simp; omega)]
    rw [if_neg (by omega), if_neg (by omega), if_neg (by omega), if_neg (by omega),
      if_neg (by omega), if_pos (by omega), if_neg (by simp; omega)]
    simp only
    rw [continuation_bytes_eq]
    · simp
    · intro j hj1 hj2
      obtain rfl | rfl | rfl : j = 1 ∨ j = 2 ∨ j = 3 := by omega
      · simp; omega
      · simp; omega
      · simp; omega

/-- C2 at the scalar values U+0041, U+00F1, U+3042 and U+1F600. -/
theorem validiate_u8_accepts_well_formed_witness :
    (∀ c ∈ [0x41, 0xF1, 0x3042, 0x1F600], IsScalarValue c) ∧
    validiate_u8 ([0x41, 0xF1, 0x3042, 0x1F600].flatMap utf8_encode) = .ok () :=
  ⟨by decide, (validiate_u8_accepts_well_formed [0x41, 0xF1, 0x3042, 0x1F600] (by decide)).1⟩

/-! ## The UTF-16 validator read on the unread remainder -/

theorem validate_u16_loop_cons (a : Nat) (str : List Nat) (i : Nat) :
    validate_u16_loop (a :: str) (i + 1) = validate_u16_loop str i := by
  generalize h : str.length - i = n
  induction n using Nat.strong_induction_on generalizing i with
  | _ n ih =>
    rw [validate_u16_loop, validate_u16_loop.eq_1 str i]
    simp only [List.length_cons, Nat.add_lt_add_iff_right, List.getD_cons_succ, ge_iff_le,
      Nat.add_le_add_iff_right]
    split
    · rename_i hlt
      split
      · split
        · rfl
        · exact ih (str.length - (i + 2)) (by omega) (i + 2) rfl
      · split
        · rfl
        · exact ih (str.length - (i + 1)) (by omega) (i + 1) rfl
    · rfl

theorem validate_u16_nil : validate_u16 [] = .ok () := by
  rw [validate_u16, validate_u16_loop]; simp

theorem validate_u16_cons (c : Nat) (rest : List Nat) :
    validate_u16 (c :: rest) =
      if IsHighSurrogate c then
        match rest with
        | [] => .error (.invalid_argument .lone_high_surrogate)
        | d :: rest2 =>
          if IsLowSurrogate d then validate_u16 rest2
          else .error (.invalid_argument .lone_high_surrogate)
      else if IsLowSurrogate c then .error (.invalid_argument .lone_low_surrogate)
      else validate_u16 rest := by
  rw [validate_u16, validate_u16_loop]
  simp only [List.length_cons, Nat.zero_lt_succ, ↓reduceDIte, List.getD_cons_zero, Nat.zero_add,
    IsHighSurrogate, IsLowSurrogate, ge_iff_le]
  by_cases hh : 0xD800 ≤ c ∧ c ≤ 0xDBFF
  · rw [if_pos hh, if_pos hh]
    cases rest with
    | nil => simp
    | cons d rest2 =>
      simp only [List.length_cons, List.getD_cons_succ, List.getD_cons_zero]
      by_cases hl : 0xDC00 ≤ d ∧ d ≤ 0xDFFF
      · rw [if_neg (by omega), if_pos hl, show (2 : Nat) = 0 + 1 + 1 from rfl,
          validate_u16_loop_cons, validate_u16_loop_cons]
        rfl
      · rw [if_pos (by omega), if_neg hl]
  · rw [if_neg hh, if_neg hh]
    by_cases hl : 0xDC00 ≤ c ∧ c ≤ 0xDFFF
    · rw [if_pos hl, if_pos hl]
    · rw [if_neg hl, if_neg hl, validate_u16_loop_cons]
      rfl

theorem wellFormedUtf16_nil : WellFormedUtf16 [] :=
  ⟨[], by simp, by simp⟩

theorem wellFormedUtf16_append (ch S : List Nat) (hch : IsUtf16Chunk ch)
    (hS : WellFormedUtf16 S) : WellFormedUtf16 (ch ++ S) := by
  obtain ⟨chunks, hall, rfl⟩ := hS
  refine ⟨ch :: chunks, ?_, by simp⟩
  intro x hx
  rcases List.mem_cons.mp hx with rfl | hx
  · exact hch
  · exact hall x hx

theorem wellFormedUtf16_single (u : Nat) (S : List Nat) (h1 : ¬ IsHighSurrogate u)
    (h2 : ¬ IsLowSurrogate u) (hS : WellFormedUtf16 S) : WellFormedUtf16 (u :: S) :=
  wellFormedUtf16_append [u] S (Or.inl ⟨u, rfl, h1, h2⟩) hS

theorem wellFormedUtf16_pair (h l : Nat) (S : List Nat) (h1 : IsHighSurrogate h)
    (h2 : IsLowSurrogate l) (hS : WellFormedUtf16 S) : WellFormedUtf16 (h :: l :: S) :=
  wellFormedUtf16_append [h, l] S (Or.inr ⟨h, l, rfl, h1, h2⟩) hS

theorem validate_u16_chunk (ch t : List Nat) (hch : IsUtf16Chunk ch) :
    validate_u16 (ch ++ t) = validate_u16 t := by
  rcases hch with ⟨u, rfl, h1, h2⟩ | ⟨h, l, rfl, h1, h2⟩
  · rw [List.singleton_append, validate_u16_cons, if_neg h1, if_neg h2]
  · simp only [List.cons_append, List.nil_append]
    rw [validate_u16_cons, if_pos h1]
    simp only
    rw [if_pos h2]

theorem validate_u16_skip (P X : List Nat) (hP : WellFormedUtf16 P) :
    validate_u16 (P ++ X) = validate_u16 X := by
  obtain ⟨chunks, hall, rfl⟩ := hP
  induction chunks with
  | nil => simp
  | cons ch chunks ih =>
    rw [List.flatten_cons, List.append_assoc,
      validate_u16_chunk _ _ (hall ch (List.mem_cons_self _ _))]
    exact ih (fun x hx => hall x (List.mem_cons_of_mem _ hx))

theorem validate_u16_of_wellFormed (S : List Nat) (h : WellFormedUtf16 S) :
    validate_u16 S = .ok () := by
  have := validate_u16_skip S [] h
  rw [List.append_nil, validate_u16_nil] at this
  exact this

/-- The three outcomes of `validate_u16`, each with the shape of the input that produces it. -/
theorem validate_u16_cases (S : List Nat) :
    (validate_u16 S = .ok () ∧ WellFormedUtf16 S) ∨
    (validate_u16 S = .error (.invalid_argument .lone_high_surrogate) ∧
      ∃ P u R, S = P ++ u :: R ∧ WellFormedUtf16 P ∧ IsHighSurrogate u ∧
        ∀ v, R.head? = some v → ¬ IsLowSurrogate v) ∨
    (validate_u16 S = .error (.invalid_argument .lone_low_surrogate) ∧
      ∃ P u R, S = P ++ u :: R ∧ WellFormedUtf16 P ∧ IsLowSurrogate u) := by
  generalize hn : S.length = n
  induction n using Nat.strong_induction_on generalizing S with
  | _ n ih =>
    cases S with
    | nil => exact Or.inl ⟨validate_u16_nil, wellFormedUtf16_nil⟩
    | cons c rest =>
      rw [validate_u16_cons]
      by_cases hh : IsHighSurrogate c
      · rw [if_pos hh]
        cases rest with
        | nil =>
          exact Or.inr (Or.inl ⟨rfl, [], c, [], rfl, wellFormedUtf16_nil, hh, by simp⟩)
        | cons d rest2 =>
          simp only
          by_cases hl : IsLowSurrogate d
          · rw [if_pos hl]
            rcases ih rest2.length (by simp at hn; omega) rest2 rfl with
              ⟨h1, h2⟩ | ⟨h1, P, u, R, rfl, h3, h4, h5⟩ | ⟨h1, P, u, R, rfl, h3, h4⟩
            · exact Or.inl ⟨h1, wellFormedUtf16_pair c d rest2 hh hl h2⟩
            · exact Or.inr (Or.inl ⟨h1, c :: d :: P, u, R, rfl,
                wellFormedUtf16_pair c d P hh hl h3, h4, h5⟩)
            · exact Or.inr (Or.inr ⟨h1, c :: d :: P, u, R, rfl,
                wellFormedUtf16_pair c d P hh hl h3, h4⟩)
          · rw [if_neg hl]
            refine Or.inr (Or.inl ⟨rfl, [], c, d :: rest2, rfl, wellFormedUtf16_nil, hh, ?_⟩)
            intro v hv
            simp at hv
            subst hv
            exact hl
      · rw [if_neg hh]
        by_cases hl : IsLowSurrogate c
        · rw [if_pos hl]
          exact Or.inr (Or.inr ⟨rfl, [], c, rest, rfl, wellFormedUtf16_nil, hl⟩)
        · rw [if_neg hl]
          rcases ih rest.length (by simp at hn; omega) rest rfl with
            ⟨h1, h2⟩ | ⟨h1, P, u, R, rfl, h3, h4, h5⟩ | ⟨h1, P, u, R, rfl, h3, h4⟩
          · exact Or.inl ⟨h1, wellFormedUtf16_single c rest hh hl h2⟩
          · exact Or.inr (Or.inl ⟨h1, c :: P, u, R, rfl,
              wellFormedUtf16_single c P hh hl h3, h4, h5⟩)
          · exact Or.inr (Or.inr ⟨h1, c :: P, u, R, rfl,
              wellFormedUtf16_single c P hh hl h3, h4⟩)

/-! ## C3: `validate_u16` -/

/-- C3: `validate_u16` succeeds exactly on the well-formed UTF-16 sequences (concatenations
of non-surrogate units and high-low surrogate pairs). It fails with "lone high surrogate"
exactly when, after a well-formed prefix, the next unit is a high surrogate that is not
immediately followed by a low surrogate, and with "lone low surrogate" exactly when, after a
well-formed prefix, the next unit is a low surrogate; it has no other outcome. -/
theorem validate_u16_spec (S : List Nat) :
    (validate_u16 S = .ok () ↔ WellFormedUtf16 S) ∧
    (validate_u16 S = .error (.invalid_argument .lone_high_surrogate) ↔
      ∃ P u R, S = P ++ u :: R ∧ WellFormedUtf16 P ∧ IsHighSurrogate u ∧
        ∀ v, R.head? = some v → ¬ IsLowSurrogate v) ∧
    (validate_u16 S = .error (.invalid_argument .lone_low_surrogate) ↔
      ∃ P u R, S = P ++ u :: R ∧ WellFormedUtf16 P ∧ IsLowSurrogate u) ∧
    (validate_u16 S = .ok () ∨
      validate_u16 S = .error (.invalid_argument .lone_high_surrogate) ∨
      validate_u16 S = .error (.invalid_argument .lone_low_surrogate)) := by
  have hhigh : (∃ P u R, S = P ++ u :: R ∧ WellFormedUtf16 P ∧ IsHighSurrogate u ∧
      ∀ v, R.head? = some v → ¬ IsLowSurrogate v) →
      validate_u16 S = .error (.invalid_argument .lone_high_surrogate) := by
    rintro ⟨P, u, R, rfl, hP, hu, hR⟩
    rw [validate_u16_skip _ _ hP, validate_u16_cons, if_pos hu]
    cases R with
    | nil => rfl
    | cons d R2 =>
      simp only
      rw [if_neg (hR d rfl)]
  have hlow : (∃ P u R, S = P ++ u :: R ∧ WellFormedUtf16 P ∧ IsLowSurrogate u) →
      validate_u16 S = .error (.invalid_argument .lone_low_surrogate) := by
    rintro ⟨P, u, R, rfl, hP, hu⟩
    have hnh : ¬ IsHighSurrogate u := by
      unfold IsHighSurrogate; unfold IsLowSurrogate at hu; omega
    rw [validate_u16_skip _ _ hP, validate_u16_cons, if_neg hnh, if_pos hu]
  refine ⟨⟨fun h => ?_, validate_u16_of_wellFormed S⟩, ⟨fun h => ?_, hhigh⟩,
    ⟨fun h => ?_, hlow⟩, ?_⟩
  · rcases validate_u16_cases S with ⟨_, h2⟩ | ⟨h1, _⟩ | ⟨h1, _⟩
    · exact h2
    · rw [h] at h1; cases h1
    · rw [h] at h1; cases h1
  · rcases validate_u16_cases S with ⟨h1, _⟩ | ⟨_, h2⟩ | ⟨h1, _⟩
    · rw [h] at h1; cases h1
    · exact h2
    · rw [h] at h1; cases h1
  · rcases validate_u16_cases S with ⟨h1, _⟩ | ⟨h1, _⟩ | ⟨_, h2⟩
    · rw [h] at h1; cases h1
    · rw [h] at h1; cases h1
    · exact h2
  · rcases validate_u16_cases S with ⟨h1, _⟩ | ⟨h1, _⟩ | ⟨h1, _⟩
    · exact Or.inl h1
    · exact Or.inr (Or.inl h1)
    · exact Or.inr (Or.inr h1)

/-! ## The converter model on well-formed input -/

theorem utf8_decode_one_encode (c : Nat) (hc : IsScalarValue c) (t : List Nat) :
    ∃ b0 more, utf8_encode c = b0 :: more ∧
      utf8_decode_one b0 (more ++ t) = some (c, more.length) := by
  obtain ⟨hmax, hsur⟩ := hc
  unfold utf8_encode
  split_ifs with h1 h2 h3
  · refine ⟨_, _, rfl, ?_⟩
    simp [utf8_decode_one, h1]
  · refine ⟨_, _, rfl, ?_⟩
    simp only [utf8_decode_one, List.cons_append, List.nil_append, List.getD_cons_zero,
      List.length_cons, List.length_nil, Bool.and_eq_true, decide_eq_true_eq]
    rw [if_neg (by omega), if_pos (by omega)]
    simp only [Option.some.injEq, Prod.mk.injEq, and_true]
    omega
  · refine ⟨_, _, rfl, ?_⟩
    simp only [utf8_decode_one, List.cons_append, List.nil_append, List.getD_cons_zero,
      List.getD_cons_succ, List.length_cons, List.length_nil, Bool.and_eq_true,
      decide_eq_true_eq]
    rw [if_neg (by omega), if_neg (by omega), if_pos (by omega), if_pos (by omega)]
    simp only [Option.some.injEq, Prod.mk.injEq, and_true]
    omega
  · refine ⟨_, _, rfl, ?_⟩
    simp only [utf8_decode_one, List.cons_append, List.nil_append, List.getD_cons_zero,
      List.getD_cons_succ, List.length_cons, List.length_nil, Bool.and_eq_true,
      decide_eq_true_eq]
    rw [if_neg (by omega), if_neg (by omega), if_neg (by omega), if_pos (by omega),
      if_pos (by omega)]
    simp only [Option.some.injEq, Prod.mk.injEq, and_true]
    omega

theorem codecvt_from_bytes_encode (c : Nat) (hc : IsScalarValue c) (t : List Nat) :
    codecvt_from_bytes (utf8_encode c ++ t) =
      match codecvt_from_bytes t with
      | .error e => .error e
      | .ok tail => .ok (utf16_encode c ++ tail) := by
  obtain ⟨b0, more, h1, h2⟩ := utf8_decode_one_encode c hc t
  rw [h1, List.cons_append, codecvt_from_bytes, h2]
  simp only [List.drop_left]

theorem codecvt_to_bytes_cons (c : Nat) (rest : List Nat) :
    codecvt_to_bytes (c :: rest) =
      if 0xD800 ≤ c ∧ c ≤ 0xDBFF then
        match rest with
        | [] => .error .range_error
        | d :: rest2 =>
          if 0xDC00 ≤ d ∧ d ≤ 0xDFFF then
            match codecvt_to_bytes rest2 with
            | .error e => .error e
            | .ok tail =>
              .ok (utf8_encode (0x10000 + (c - 0xD800) * 0x400 + (d - 0xDC00)) ++ tail)
          else
            .error .range_error
      else if 0xDC00 ≤ c ∧ c ≤ 0xDFFF then
        .error .range_error
      else
        match codecvt_to_bytes rest with
        | .error e => .error e
        | .ok tail => .ok (utf8_encode c ++ tail) := by
  cases rest <;> simp only [codecvt_to_bytes]

theorem codecvt_to_bytes_chunk (ch t : List Nat) (hch : IsUtf16Chunk ch)
    (h16 : IsU16String ch) :
    ∃ c, IsScalarValue c ∧ utf16_encode c = ch ∧
      codecvt_to_bytes (ch ++ t) =
        match codecvt_to_bytes t with
        | .error e => .error e
        | .ok tail => .ok (utf8_encode c ++ tail) := by
  rcases hch with ⟨u, rfl, h1, h2⟩ | ⟨h, l, rfl, h1, h2⟩
  · have hu : u < 0x10000 := h16 u (by simp)
    unfold IsHighSurrogate at h1
    unfold IsLowSurrogate at h2
    refine ⟨u, ⟨by omega, by omega⟩, by simp [utf16_encode, hu], ?_⟩
    rw [List.singleton_append, codecvt_to_bytes_cons, if_neg h1, if_neg h2]
  · unfold IsHighSurrogate at h1
    unfold IsLowSurrogate at h2
    refine ⟨0x10000 + (h - 0xD800) * 0x400 + (l - 0xDC00), ⟨by omega, by omega⟩, ?_, ?_⟩
    · unfold utf16_encode
      rw [if_neg (by omega)]
      simp only [List.cons.injEq, and_true]
      omega
    · simp only [List.cons_append, List.nil_append]
      rw [codecvt_to_bytes_cons, if_pos h1]
      simp only
      rw [if_pos h2]

theorem roundtrip_chunks (chunks : List (List Nat)) (hall : ∀ ch ∈ chunks, IsUtf16Chunk ch)
    (h16 : IsU16String chunks.flatten) :
    ∃ b, codecvt_to_bytes chunks.flatten = .ok b ∧ validiate_u8 b = .ok () ∧
      codecvt_from_bytes b = .ok chunks.flatten := by
  induction chunks with
  | nil =>
    refine ⟨[], ?_, validiate_u8_nil, ?_⟩
    · simp [codecvt_to_bytes]
    · simp [codecvt_from_bytes]
  | cons ch chunks ih =>
    obtain ⟨b, hb1, hb2, hb3⟩ := ih (fun x hx => hall x (List.mem_cons_of_mem _ hx))
      (fun u hu => h16 u (by simp only [List.flatten_cons, List.mem_append]; exact Or.inr hu))
    obtain ⟨c, hc, hce, hto⟩ := codecvt_to_bytes_chunk ch chunks.flatten
      (hall ch (List.mem_cons_self _ _))
      (fun u hu => h16 u (by simp only [List.flatten_cons, List.mem_append]; exact Or.inl hu))
    refine ⟨utf8_encode c ++ b, ?_, ?_, ?_⟩
    · rw [List.flatten_cons, hto, hb1]
    · rw [validiate_u8_encode c (by have := hc.1; omega), hb2]
    · rw [codecvt_from_bytes_encode c hc, hb3, List.flatten_cons, hce]

/-- On a well-formed sequence of 16-bit units `u16_to_u8` returns a byte string. -/
theorem u16_to_u8_of_wellFormed (S : List Nat) (hwf : WellFormedUtf16 S) (h16 : IsU16String S) :
    ∃ u8str, u16_to_u8 S = .ok u8str ∧ validiate_u8 u8str = .ok () ∧
      codecvt_from_bytes u8str = .ok S := by
  have hv := validate_u16_of_wellFormed S hwf
  obtain ⟨chunks, hall, rfl⟩ := hwf
  obtain ⟨b, hb1, hb2, hb3⟩ := roundtrip_chunks chunks hall h16
  refine ⟨b, ?_, hb2, hb3⟩
  unfold u16_to_u8
  rw [hv]
  exact hb1

/-! ## C4: UTF-16 to UTF-8 and back -/

/-- C4: for every well-formed UTF-16 sequence `S` (of 16-bit units), `u16_to_u8 S` returns a
byte string and `u8_to_u16` of that byte string returns `S`. -/
theorem u8_to_u16_u16_to_u8 (S : List Nat) (hwf : WellFormedUtf16 S) (h16 : IsU16String S) :
    ∃ u8str, u16_to_u8 S = .ok u8str ∧ u8_to_u16 u8str = .ok S := by
  obtain ⟨b, hb1, hb2, hb3⟩ := u16_to_u8_of_wellFormed S hwf h16
  refine ⟨b, hb1, ?_⟩
  unfold u8_to_u16
  rw [hb2]
  exact hb3

/-- C4 at "A", U+3042 and the surrogate pair of U+1F600. -/
theorem u8_to_u16_u16_to_u8_witness :
    ∃ u8str, u16_to_u8 [0x41, 0x3042, 0xD83D, 0xDE00] = .ok u8str ∧
      u8_to_u16 u8str = .ok [0x41, 0x3042, 0xD83D, 0xDE00] :=
  u8_to_u16_u16_to_u8 [0x41, 0x3042, 0xD83D, 0xDE00]
    (wellFormedUtf16_single _ _ (by decide) (by decide)
      (wellFormedUtf16_single _ _ (by decide) (by decide)
        (wellFormedUtf16_pair _ _ _ (by decide) (by decide) wellFormedUtf16_nil)))
    (by decide)

/-! ## The UTF-8 byte decoder never returns -/

theorem u8_bytes_to_u16_no_bom (fuel : Nat) (bytes : List Nat)
    (h1 : is_start_with_bom_u8 bytes = false) :
    u8_bytes_to_u16 fuel bytes = none ∨
      ∃ e, u8_bytes_to_u16 fuel bytes = some (.error e) := by
  induction fuel with
  | zero => exact Or.inl rfl
  | succ fuel ih =>
    rw [u8_bytes_to_u16, h1]
    simp only [Bool.false_eq_true, if_false]
    split_ifs
    · exact Or.inr ⟨_, rfl⟩
    · exact Or.inr ⟨_, rfl⟩
    · exact ih

theorem u8_bytes_to_u16_never_returns (fuel : Nat) (bytes : List Nat) :
    u8_bytes_to_u16 fuel bytes = none ∨
      ∃ e, u8_bytes_to_u16 fuel bytes = some (.error e) := by
  induction fuel generalizing bytes with
  | zero => exact Or.inl rfl
  | succ fuel ih =>
    by_cases h1 : is_start_with_bom_u8 bytes = true
    · rw [u8_bytes_to_u16, if_pos h1]
      exact ih _
    · exact u8_bytes_to_u16_no_bom (fuel + 1) bytes (by simpa using h1)

theorem u8_bytes_to_u16_diverges (bytes : List Nat) (h1 : is_start_with_bom_u8 bytes = false)
    (h2 : is_start_with_bom_u16le bytes = false) (h3 : is_start_with_bom_u16be bytes = false)
    (fuel : Nat) : u8_bytes_to_u16 fuel bytes = none := by
  induction fuel with
  | zero => rfl
  | succ fuel ih =>
    rw [u8_bytes_to_u16, h1, h2, h3]
    simpa using ih

/-! ## C5, C6: the UTF-8-oriented byte decoder -/

/-- C5 (the code departs from it): for `S = "A"`, `u16_to_u8_bytes` yields `41` without and
`EF BB BF 41` with the BOM, and on neither buffer does `u8_bytes_to_u16` return: at every
depth of calls the function is still calling itself. -/
theorem u8_bytes_to_u16_of_u16_to_u8_bytes_diverges :
    u16_to_u8_bytes [0x41] false = .ok [0x41] ∧
    u16_to_u8_bytes [0x41] true = .ok [0xEF, 0xBB, 0xBF, 0x41] ∧
    (∀ fuel, u8_bytes_to_u16 fuel [0x41] = none) ∧
    (∀ fuel, u8_bytes_to_u16 fuel [0xEF, 0xBB, 0xBF, 0x41] = none) := by
  have hA : ∀ fuel, u8_bytes_to_u16 fuel [0x41] = none :=
    u8_bytes_to_u16_diverges [0x41] (by decide) (by decide) (by decide)
  have h8 : u16_to_u8 [0x41] = .ok [0x41] := by
    simp +decide [u16_to_u8, validate_u16_cons, validate_u16_nil, codecvt_to_bytes, utf8_encode]
  refine ⟨?_, ?_, hA, ?_⟩
  · simp +decide [u16_to_u8_bytes, h8, resize, copy]
  · simp +decide [u16_to_u8_bytes, h8, resize, copy, BOM_UTF8]
  · intro fuel
    cases fuel with
    | zero => rfl
    | succ fuel =>
      rw [u8_bytes_to_u16, if_pos (by decide)]
      exact hA fuel

/-- C6 (the code departs from it): the buffer `41` begins with no BOM and is valid UTF-8,
`u8_to_u16` returns `"A"` on it, yet `u8_bytes_to_u16` does not terminate on it: at every
depth of calls the function is still calling itself on the same buffer. -/
theorem u8_bytes_to_u16_no_bom_diverges :
    is_start_with_bom_u8 [0x41] = false ∧ is_start_with_bom_u16le [0x41] = false ∧
    is_start_with_bom_u16be [0x41] = false ∧ u8_to_u16 [0x41] = .ok [0x41] ∧
    (∀ fuel, u8_bytes_to_u16 fuel [0x41] = none) := by
  refine ⟨by decide, by decide, by decide, ?_,
    u8_bytes_to_u16_diverges [0x41] (by decide) (by decide) (by decide)⟩
  simp +decide [u8_to_u16, validiate_u8_cons, validiate_u8_nil, remaining_bytes,
    continuation_bytes, codecvt_from_bytes, utf8_decode_one, utf16_encode]

/-! ## The serialisers' write loops and the big-endian read loop -/

theorem set_append_length (pre : List Nat) (a x : Nat) (t : List Nat) :
    (pre ++ a :: t).set pre.length x = pre ++ x :: t := by
  induction pre with
  | nil => rfl
  | cons p pre ih => simp [ih]

theorem set_set_append (pre : List Nat) (x y : Nat) (n : Nat) :
    ((pre ++ List.replicate ((n + 1) * 2) 0).set pre.length x).set (pre.length + 1) y =
      (pre ++ [x, y]) ++ List.replicate (n * 2) 0 := by
  have h : (n + 1) * 2 = n * 2 + 1 + 1 := by omega
  rw [h, List.replicate_succ, List.replicate_succ, set_append_length]
  have h2 := set_append_length (pre ++ [x]) 0 y (List.replicate (n * 2) 0)
  simp only [List.length_append, List.length_singleton, List.append_assoc,
    List.singleton_append] at h2
  rw [h2]
  simp

theorem write_loop (hi lo : Nat → Nat) (str pre : List Nat) :
    (str.foldl
      (fun (st : List Nat × Nat) c => (((st.1.set st.2 (hi c)).set (st.2 + 1) (lo c)), st.2 + 2))
      (pre ++ List.replicate (str.length * 2) 0, pre.length)).1 =
      pre ++ str.flatMap (fun c => [hi c, lo c]) := by
  induction str generalizing pre with
  | nil => simp
  | cons c cs ih =>
    rw [List.foldl_cons, List.length_cons]
    simp only
    rw [set_set_append]
    have := ih (pre ++ [hi c, lo c])
    simp only [List.length_append, List.length_cons, List.length_nil] at this
    rw [this]
    simp

theorem copy_bom_resize (bom : List Nat) (n : Nat) :
    copy bom (resize (n + bom.length)) 0 = bom ++ List.replicate n 0 := by
  simp [copy, resize]

theorem u16_to_u16be_bytes_eq (S : List Nat) (hwf : WellFormedUtf16 S) (addBom : Bool) :
    u16_to_u16be_bytes S addBom =
      .ok ((if addBom then BOM_UTF16BE else []) ++
        S.flatMap (fun c => [(c >>> 8) &&& 0xff, c &&& 0xff])) := by
  unfold u16_to_u16be_bytes
  rw [validate_u16_of_wellFormed S hwf]
  cases addBom with
  | false =>
    simp only [Bool.false_eq_true, if_false, Nat.add_zero]
    have := write_loop (fun c => (c >>> 8) &&& 0xff) (fun c => c &&& 0xff) S []
    simp only [List.nil_append, List.length_nil] at this
    rw [resize, this]
    rfl
  | true =>
    simp only [if_true]
    have := write_loop (fun c => (c >>> 8) &&& 0xff) (fun c => c &&& 0xff) S BOM_UTF16BE
    rw [copy_bom_resize, this]

theorem u16_to_u16le_bytes_eq (S : List Nat) (hwf : WellFormedUtf16 S) (addBom : Bool) :
    u16_to_u16le_bytes S addBom =
      .ok ((if addBom then BOM_UTF16BE else []) ++
        S.flatMap (fun c => [c &&& 0xff, (c >>> 8) &&& 0xff])) := by
  unfold u16_to_u16le_bytes
  rw [validate_u16_of_wellFormed S hwf]
  cases addBom with
  | false =>
    simp only [Bool.false_eq_true, if_false, Nat.add_zero]
    have := write_loop (fun c => c &&& 0xff) (fun c => (c >>> 8) &&& 0xff) S []
    simp only [List.nil_append, List.length_nil] at this
    rw [resize, this]
    rfl
  | true =>
    simp only [if_true]
    have := write_loop (fun c => c &&& 0xff) (fun c => (c >>> 8) &&& 0xff) S BOM_UTF16BE
    have hl : BOM_UTF16LE.length = BOM_UTF16BE.length := rfl
    rw [hl, copy_bom_resize, this]

theorem u16be_bytes_to_u16_cons (b0 b1 : Nat) (rest : List Nat) :
    u16be_bytes_to_u16 (b0 :: b1 :: rest) =
      (((b0 <<< 8) ||| b1) % 0x10000) :: u16be_bytes_to_u16 rest := by
  unfold u16be_bytes_to_u16
  have h : (b0 :: b1 :: rest).length / 2 = rest.length / 2 + 1 := by
    simp only [List.length_cons]; omega
  rw [h, List.range_succ_eq_map, List.map_cons, List.map_map]
  simp only [Nat.zero_mul, List.getD_cons_zero, Nat.zero_add, List.getD_cons_succ,
    List.cons.injEq, true_and]
  apply List.map_congr_left
  intro i _
  have e1 : Nat.succ i * 2 = i * 2 + 1 + 1 := by omega
  simp only [Function.comp, e1, List.getD_cons_succ]

theorem unit_of_bytes (c : Nat) (hc : c < 0x10000) :
    ((((c >>> 8) &&& 0xff) <<< 8) ||| (c &&& 0xff)) % 0x10000 = c := by
  have e : (0xff : Nat) = 2 ^ 8 - 1 := by decide
  rw [e, Nat.and_pow_two_sub_one_eq_mod, Nat.and_pow_two_sub_one_eq_mod,
    Nat.shiftRight_eq_div_pow, Nat.shiftLeft_eq, Nat.mul_comm,
    ← Nat.mul_add_lt_is_or (Nat.mod_lt _ (by decide))]
  omega

theorem u16be_bytes_to_u16_flatMap (S : List Nat) (h16 : IsU16String S) :
    u16be_bytes_to_u16 (S.flatMap (fun c => [(c >>> 8) &&& 0xff, c &&& 0xff])) = S := by
  induction S with
  | nil => rfl
  | cons c cs ih =>
    rw [List.flatMap_cons]
    simp only [List.cons_append, List.nil_append]
    rw [u16be_bytes_to_u16_cons, unit_of_bytes c (h16 c (List.mem_cons_self _ _)),
      ih (fun u hu => h16 u (List.mem_cons_of_mem _ hu))]

theorem byte_pair (c : Nat) (hc : c < 0x10000) :
    (c >>> 8) &&& 0xff = c / 0x100 ∧ c &&& 0xff = c % 0x100 := by
  have e : (0xff : Nat) = 2 ^ 8 - 1 := by decide
  rw [e, Nat.and_pow_two_sub_one_eq_mod, Nat.and_pow_two_sub_one_eq_mod,
    Nat.shiftRight_eq_div_pow]
  constructor
  · have : c / 2 ^ 8 < 2 ^ 8 := by omega
    exact Nat.mod_eq_of_lt this
  · rfl

/-! ## C7: the little-endian serialiser with a BOM -/

/-- C7 (the code departs from it): for `S = "A"` the little-endian serialiser with
`addBom = true` returns `FE FF 41 00`: the units are written low byte first, but the two
leading bytes are the big-endian BOM, so `is_start_with_bom_u16le` is false on the result
and `is_start_with_bom_u16be` is true. -/
theorem u16_to_u16le_bytes_writes_be_bom :
    u16_to_u16le_bytes [0x41] true = .ok [0xFE, 0xFF, 0x41, 0x00] ∧
    is_start_with_bom_u16le [0xFE, 0xFF, 0x41, 0x00] = false ∧
    is_start_with_bom_u16be [0xFE, 0xFF, 0x41, 0x00] = true := by
  refine ⟨?_, by decide, by decide⟩
  rw [u16_to_u16le_bytes_eq [0x41]
    (wellFormedUtf16_single _ _ (by decide) (by decide) wellFormedUtf16_nil)]
  rfl

/-! ## C8: the UTF-8 serialiser -/

/-- C8: for every well-formed UTF-16 sequence `S`, `u16_to_u8_bytes S true` is the three
bytes `EF BB BF` followed by `u16_to_u8 S`, on which `is_start_with_bom_u8` is true, and
`u16_to_u8_bytes S false` is `u16_to_u8 S` with no prefix. -/
theorem u16_to_u8_bytes_spec (S : List Nat) (hwf : WellFormedUtf16 S) (h16 : IsU16String S) :
    ∃ u8str, u16_to_u8 S = .ok u8str ∧
      u16_to_u8_bytes S true = .ok (0xEF :: 0xBB :: 0xBF :: u8str) ∧
      is_start_with_bom_u8 (0xEF :: 0xBB :: 0xBF :: u8str) = true ∧
      u16_to_u8_bytes S false = .ok u8str := by
  obtain ⟨b, hb, -, -⟩ := u16_to_u8_of_wellFormed S hwf h16
  refine ⟨b, hb, ?_, ?_, ?_⟩
  · unfold u16_to_u8_bytes
    rw [hb]
    simp only [if_true]
    rw [copy_bom_resize]
    simp [copy, BOM_UTF8]
    omega
  · simp [is_start_with_bom_u8, BOM_UTF8]
  · unfold u16_to_u8_bytes
    rw [hb]
    simp [copy, resize]

/-- C8 at "A", U+3042 and the surrogate pair of U+1F600. -/
theorem u16_to_u8_bytes_spec_witness :
    ∃ u8str, u16_to_u8 [0x41, 0x3042, 0xD83D, 0xDE00] = .ok u8str ∧
      u16_to_u8_bytes [0x41, 0x3042, 0xD83D, 0xDE00] true = .ok (0xEF :: 0xBB :: 0xBF :: u8str) ∧
      is_start_with_bom_u8 (0xEF :: 0xBB :: 0xBF :: u8str) = true ∧
      u16_to_u8_bytes [0x41, 0x3042, 0xD83D, 0xDE00] false = .ok u8str :=
  u16_to_u8_bytes_spec [0x41, 0x3042, 0xD83D, 0xDE00]
    (wellFormedUtf16_single _ _ (by decide) (by decide)
      (wellFormedUtf16_single _ _ (by decide) (by decide)
        (wellFormedUtf16_pair _ _ _ (by decide) (by decide) wellFormedUtf16_nil)))
    (by decide)

/-! ## C9, C10: UTF-16 big-endian bytes and back -/

/-- C9: for every well-formed UTF-16 sequence `S`, `u16_to_u16be_bytes S true` is `FE FF`
followed by the units of `S` high byte first, and `u16_bytes_to_u16` of that buffer returns
`S`: the decoder takes the big-endian branch, drops exactly the two BOM bytes and recovers
every unit. -/
theorem u16_bytes_to_u16_u16_to_u16be_bytes (S : List Nat) (hwf : WellFormedUtf16 S)
    (h16 : IsU16String S) :
    ∃ body, u16_to_u16be_bytes S true = .ok (0xFE :: 0xFF :: body) ∧
      body = S.flatMap (fun c => [c / 0x100, c % 0x100]) ∧
      u16be_bytes_to_u16 body = S ∧
      u16_bytes_to_u16 (0xFE :: 0xFF :: body) = some (.ok S) := by
  have hdec := u16be_bytes_to_u16_flatMap S h16
  refine ⟨S.flatMap (fun c => [(c >>> 8) &&& 0xff, c &&& 0xff]), ?_, ?_, hdec, ?_⟩
  · rw [u16_to_u16be_bytes_eq S hwf]
    rfl
  · apply List.flatMap_congr
    intro c hc
    obtain ⟨e1, e2⟩ := byte_pair c (h16 c hc)
    rw [e1, e2]
  · unfold u16_bytes_to_u16
    rw [if_neg (by simp [is_start_with_bom_u8, BOM_UTF8]),
      if_neg (by simp [is_start_with_bom_u16le, BOM_UTF16LE]),
      if_pos (by simp [is_start_with_bom_u16be, BOM_UTF16BE])]
    simp only [BOM_UTF16BE, List.length_cons, List.length_nil, List.drop_succ_cons, List.drop_zero]
    rw [hdec]

/-- C9 at "A", U+3042 and the surrogate pair of U+1F600. -/
theorem u16_bytes_to_u16_u16_to_u16be_bytes_witness :
    ∃ body, u16_to_u16be_bytes [0x41, 0x3042, 0xD83D, 0xDE00] true = .ok (0xFE :: 0xFF :: body) ∧
      body = [0x41, 0x3042, 0xD83D, 0xDE00].flatMap (fun c => [c / 0x100, c % 0x100]) ∧
      u16be_bytes_to_u16 body = [0x41, 0x3042, 0xD83D, 0xDE00] ∧
      u16_bytes_to_u16 (0xFE :: 0xFF :: body) = some (.ok [0x41, 0x3042, 0xD83D, 0xDE00]) :=
  u16_bytes_to_u16_u16_to_u16be_bytes [0x41, 0x3042, 0xD83D, 0xDE00]
    (wellFormedUtf16_single _ _ (by decide) (by decide)
      (wellFormedUtf16_single _ _ (by decide) (by decide)
        (wellFormedUtf16_pair _ _ _ (by decide) (by decide) wellFormedUtf16_nil)))
    (by decide)

theorem no_bom_of_units (S : List Nat) (h16 : IsU16String S)
    (h1 : ∀ rest, S ≠ 0xFEFF :: rest) (h2 : ∀ rest, S ≠ 0xFFFE :: rest)
    (h3 : ∀ v rest, S = 0xEFBB :: v :: rest → v / 0x100 ≠ 0xBF) :
    is_start_with_bom_u8 (S.flatMap (fun c => [(c >>> 8) &&& 0xff, c &&& 0xff])) = false ∧
    is_start_with_bom_u16le (S.flatMap (fun c => [(c >>> 8) &&& 0xff, c &&& 0xff])) = false ∧
    is_start_with_bom_u16be (S.flatMap (fun c => [(c >>> 8) &&& 0xff, c &&& 0xff])) = false := by
  cases S with
  | nil => exact ⟨by decide, by decide, by decide⟩
  | cons c cs =>
    have hc : c < 0x10000 := h16 c (List.mem_cons_self _ _)
    obtain ⟨e1, e2⟩ := byte_pair c hc
    rw [List.flatMap_cons, e1, e2]
    refine ⟨?_, ?_, ?_⟩
    · cases cs with
      | nil => simp [is_start_with_bom_u8, BOM_UTF8]
      | cons d ds =>
        have hd : d < 0x10000 := h16 d (by simp)
        obtain ⟨f1, -⟩ := byte_pair d hd
        rw [List.flatMap_cons, f1]
        simp only [is_start_with_bom_u8, BOM_UTF8, List.cons_append, List.nil_append,
          List.length_cons, List.length_nil, List.take_succ_cons, List.take_zero,
          Bool.and_eq_false_imp,
          decide_eq_true_eq, beq_eq_false_iff_ne, ne_eq, List.cons.injEq, and_true, not_and]
        intro _ ha hb hv
        have hceq : c = 0xEFBB := by omega
        exact h3 d ds (by rw [hceq]) hv
    · simp only [is_start_with_bom_u16le, BOM_UTF16LE, List.cons_append, List.nil_append,
        List.length_cons, List.length_nil, List.take_succ_cons, List.take_zero,
          Bool.and_eq_false_imp,
        decide_eq_true_eq, beq_eq_false_iff_ne, ne_eq, List.cons.injEq, and_true, not_and]
      intro _ ha hb
      have hceq : c = 0xFFFE := by omega
      exact h2 cs (by rw [hceq])
    · simp only [is_start_with_bom_u16be, BOM_UTF16BE, List.cons_append, List.nil_append,
        List.length_cons, List.length_nil, List.take_succ_cons, List.take_zero,
          Bool.and_eq_false_imp,
        decide_eq_true_eq, beq_eq_false_iff_ne, ne_eq, List.cons.injEq, and_true, not_and]
      intro _ ha hb
      have hceq : c = 0xFEFF := by omega
      exact h1 cs (by rw [hceq])

/-- C10 as stated fails: the single unit U+FEFF is well-formed UTF-16; without a BOM it is
serialised to `FE FF`, which `u16_bytes_to_u16` takes for the big-endian BOM and strips, so
the empty sequence comes back. -/
theorem u16_bytes_to_u16_u16_to_u16_bytes_counterexample :
    WellFormedUtf16 [0xFEFF] ∧ IsU16String [0xFEFF] ∧
    u16_to_u16_bytes [0xFEFF] false = .ok [0xFE, 0xFF] ∧
    u16_bytes_to_u16 [0xFE, 0xFF] = some (.ok []) ∧
    ¬ ∃ bytes, u16_to_u16_bytes [0xFEFF] false = .ok bytes ∧
      u16_bytes_to_u16 bytes = some (.ok [0xFEFF]) := by
  have hwf : WellFormedUtf16 [0xFEFF] :=
    wellFormedUtf16_single _ _ (by decide) (by decide) wellFormedUtf16_nil
  have hser : u16_to_u16_bytes [0xFEFF] false = .ok [0xFE, 0xFF] := by
    rw [u16_to_u16_bytes, u16_to_u16be_bytes_eq _ hwf]
    rfl
  have hdec : u16_bytes_to_u16 [0xFE, 0xFF] = some (.ok []) := by
    unfold u16_bytes_to_u16
    rw [if_neg (by decide), if_neg (by decide), if_pos (by decide)]
    rfl
  refine ⟨hwf, by decide, hser, hdec, ?_⟩
  rintro ⟨bytes, hb1, hb2⟩
  rw [hser] at hb1
  cases hb1
  rw [hdec] at hb2
  cases hb2

/-- C10, amended: for every well-formed UTF-16 sequence `S` whose first unit is neither
U+FEFF nor U+FFFE and which does not begin with the unit `0xEFBB` followed by a unit with high
byte `0xBF` (so that its big-endian bytes begin with none of the three BOM literals),
`u16_to_u16_bytes S false` returns the units of `S` high byte first with no prefix, and
`u16_bytes_to_u16` of that buffer returns `S`. -/
theorem u16_bytes_to_u16_u16_to_u16_bytes (S : List Nat) (hwf : WellFormedUtf16 S)
    (h16 : IsU16String S) (h1 : ∀ rest, S ≠ 0xFEFF :: rest) (h2 : ∀ rest, S ≠ 0xFFFE :: rest)
    (h3 : ∀ v rest, S = 0xEFBB :: v :: rest → v / 0x100 ≠ 0xBF) :
    ∃ bytes, u16_to_u16_bytes S false = .ok bytes ∧
      bytes = S.flatMap (fun c => [c / 0x100, c % 0x100]) ∧
      u16_bytes_to_u16 bytes = some (.ok S) := by
  obtain ⟨n1, n2, n3⟩ := no_bom_of_units S h16 h1 h2 h3
  refine ⟨S.flatMap (fun c => [(c >>> 8) &&& 0xff, c &&& 0xff]), ?_, ?_, ?_⟩
  · rw [u16_to_u16_bytes, u16_to_u16be_bytes_eq S hwf]
    rfl
  · apply List.flatMap_congr
    intro c hc
    obtain ⟨e1, e2⟩ := byte_pair c (h16 c hc)
    rw [e1, e2]
  · unfold u16_bytes_to_u16
    rw [n1, n2, n3]
    simp only [Bool.false_eq_true, if_false]
    rw [u16be_bytes_to_u16_flatMap S h16]

/-- C10, amended, at the test's "A", U+3042 and the surrogate pair of U+1F600. -/
theorem u16_bytes_to_u16_u16_to_u16_bytes_witness :
    ∃ bytes, u16_to_u16_bytes [0x41, 0x3042, 0xD83D, 0xDE00] false = .ok bytes ∧
      bytes = [0x41, 0x3042, 0xD83D, 0xDE00].flatMap (fun c => [c / 0x100, c % 0x100]) ∧
      u16_bytes_to_u16 bytes = some (.ok [0x41, 0x3042, 0xD83D, 0xDE00]) :=
  u16_bytes_to_u16_u16_to_u16_bytes [0x41, 0x3042, 0xD83D, 0xDE00]
    (wellFormedUtf16_single _ _ (by decide) (by decide)
      (wellFormedUtf16_single _ _ (by decide) (by decide)
        (wellFormedUtf16_pair _ _ _ (by decide) (by decide) wellFormedUtf16_nil)))
    (by decide) (by intro rest h; cases h) (by intro rest h; cases h)
    (by intro v rest h; cases h)

/-! ## C11: the little-endian byte decoder -/

/-- C11 (the code departs from it): `u16le_bytes_to_u16` does not decode the declared length
of the buffer. On the six bytes `41 00 00 00 42 00` it returns the single unit `0041` and
drops the zero unit and the unit `0042` after it; on the two bytes `41 00`, which hold no
zero unit, the read runs past the end of the buffer and no result is defined. -/
theorem u16le_bytes_to_u16_stops_at_zero_unit :
    IsByteString [0x41, 0x00, 0x00, 0x00, 0x42, 0x00] ∧
    u16le_bytes_to_u16 [0x41, 0x00, 0x00, 0x00, 0x42, 0x00] = some [0x0041] ∧
    u16le_bytes_to_u16 [0x41, 0x00] = none ∧
    u16be_bytes_to_u16 [0x00, 0x41, 0x00, 0x00, 0x00, 0x42] = [0x0041, 0x0000, 0x0042] := by
  refine ⟨by decide, by decide, by decide, by decide⟩

/-! ## C12: a BOM of the other family -/

/-- C12: on every buffer that begins with `EF BB BF`, `u16_bytes_to_u16` throws
`std::invalid_argument` ("Invalid BOM for UTF-8"); on every buffer that begins with `FF FE`
or with `FE FF`, `u8_bytes_to_u16` throws `std::invalid_argument` ("Invalid BOM for UTF-16LE",
"Invalid BOM for UTF-16BE") as soon as it is called, at every depth bound of at least one
call. No sequence is returned. -/
theorem bom_family_mismatch_rejected (rest : List Nat) :
    u16_bytes_to_u16 (0xEF :: 0xBB :: 0xBF :: rest) =
      some (.error (.invalid_argument .invalid_bom_utf8)) ∧
    (∀ fuel, u8_bytes_to_u16 (fuel + 1) (0xFF :: 0xFE :: rest) =
      some (.error (.invalid_argument .invalid_bom_utf16le))) ∧
    (∀ fuel, u8_bytes_to_u16 (fuel + 1) (0xFE :: 0xFF :: rest) =
      some (.error (.invalid_argument .invalid_bom_utf16be))) := by
  refine ⟨?_, ?_, ?_⟩
  · unfold u16_bytes_to_u16
    rw [if_pos (by simp [is_start_with_bom_u8, BOM_UTF8])]
  · intro fuel
    rw [u8_bytes_to_u16, if_neg (by simp [is_start_with_bom_u8, BOM_UTF8]),
      if_pos (by simp [is_start_with_bom_u16le, BOM_UTF16LE])]
  · intro fuel
    rw [u8_bytes_to_u16, if_neg (by simp [is_start_with_bom_u8, BOM_UTF8]),
      if_neg (by simp [is_start_with_bom_u16le, BOM_UTF16LE]),
      if_pos (by simp [is_start_with_bom_u16be, BOM_UTF16BE])]

/-! ## Index loops that fill a zeroed buffer -/

theorem fill_loop (g : Nat → Nat) (m : Nat) (pre : List Nat) :
    (List.range' pre.length m).foldl (fun r i => r.set i (g i))
      (pre ++ List.replicate m 0) = pre ++ (List.range' pre.length m).map g := by
  induction m generalizing pre with
  | zero => simp
  | succ m ih =>
    rw [List.range'_succ, List.foldl_cons, List.replicate_succ, set_append_length]
    have := ih (pre ++ [g pre.length])
    simp only [List.length_append, List.length_singleton, List.append_assoc,
      List.singleton_append] at this
    rw [this]
    simp

theorem fill_loop_range (g : Nat → Nat) (n : Nat) :
    (List.range n).foldl (fun r i => r.set i (g i)) (resize n) = (List.range n).map g := by
  have := fill_loop g n []
  simp only [List.length_nil, List.nil_append] at this
  rw [List.range_eq_range', resize, this]

theorem fill_loop_stride (g : Nat → Nat) (m : Nat) (pre : List Nat) :
    (List.range' (pre.length * 4) m 4).foldl (fun r i => r.set (i / 4) (g i))
      (pre ++ List.replicate m 0) = pre ++ (List.range' (pre.length * 4) m 4).map g := by
  induction m generalizing pre with
  | zero => simp
  | succ m ih =>
    rw [List.range'_succ, List.foldl_cons, List.replicate_succ,
      Nat.mul_div_cancel _ (by decide : 0 < 4), set_append_length]
    have := ih (pre ++ [g (pre.length * 4)])
    simp only [List.length_append, List.length_singleton, List.append_assoc,
      List.singleton_append, Nat.add_mul, Nat.one_mul] at this
    rw [this]
    simp

theorem range_stride (s n step : Nat) :
    List.range' s n step = (List.range n).map (fun k => s + step * k) := by
  induction n generalizing s with
  | zero => rfl
  | succ n ih =>
    rw [List.range'_succ, List.range_succ_eq_map, List.map_cons, List.map_map, ih]
    simp only [Nat.mul_zero, Nat.add_zero, List.cons.injEq, true_and]
    apply List.map_congr_left
    intro k _
    simp only [Function.comp, Nat.succ_eq_add_one, Nat.mul_add, Nat.mul_one]
    omega

theorem map_range_getD (g : Nat → Nat) (S : List Nat) :
    (List.range S.length).map (fun i => g (S.getD i 0)) = S.map g := by
  induction S with
  | nil => rfl
  | cons c cs ih =>
    rw [List.length_cons, List.range_succ_eq_map, List.map_cons, List.map_map, List.map_cons,
      ← ih]
    simp only [List.getD_cons_zero, List.cons.injEq, true_and]
    apply List.map_congr_left
    intro i _
    simp only [Function.comp, Nat.succ_eq_add_one, List.getD_cons_succ]

/-! ## C17, C18, C19: the legacy encodings -/

/-- C17: for every sequence `S` of 16-bit code units, well-formed or not,
`u16_to_us_ascii_bytes S` (which cannot throw: it validates nothing) is a buffer of length
`|S|` whose byte `i` is `S[i]` when `S[i] ≤ 0x7F` and `0x3F` (`'?'`) otherwise. -/
theorem u16_to_us_ascii_bytes_spec (S : List Nat) :
    u16_to_us_ascii_bytes S = S.map (fun c => if c ≤ 0x7F then c else 0x3F) ∧
    (u16_to_us_ascii_bytes S).length = S.length ∧
    ∀ i, i < S.length → (u16_to_us_ascii_bytes S).getD i 0 =
      if S.getD i 0 ≤ 0x7F then S.getD i 0 else 0x3F := by
  have h : u16_to_us_ascii_bytes S = S.map (fun c => if c ≤ 0x7F then c else 0x3F) := by
    unfold u16_to_us_ascii_bytes
    simp only
    rw [fill_loop_range, map_range_getD (fun c => if c ≤ 0x7F then c % 0x100 else 0x3F)]
    apply List.map_congr_left
    intro c _
    split_ifs with hc
    · omega
    · rfl
  refine ⟨h, by rw [h, List.length_map], ?_⟩
  intro i hi
  rw [h, List.getD_eq_getElem?_getD, List.getD_eq_getElem?_getD, List.getElem?_map,
    List.getElem?_eq_getElem hi]
  rfl

/-- C18 (the code departs from it where plain `char` is signed, as on x86 and under
`_WIN32`): `us_ascii_bytes_to_u16` converts each `char` to `char16_t` without masking, so
the bytes `80` and `FF` become the units `FF80` and `FFFF`, not `0080` and `00FF`; the
sibling `iso_8859_1_bytes_to_u16` masks with `0xff` and returns `0080` and `00FF`. -/
theorem us_ascii_bytes_to_u16_sign_extends :
    IsByteString [0x41, 0x80, 0xFF] ∧
    us_ascii_bytes_to_u16 true [0x41, 0x80, 0xFF] = [0x0041, 0xFF80, 0xFFFF] ∧
    iso_8859_1_bytes_to_u16 true [0x41, 0x80, 0xFF] = [0x0041, 0x0080, 0x00FF] ∧
    us_ascii_bytes_to_u16 false [0x41, 0x80, 0xFF] = [0x0041, 0x0080, 0x00FF] := by
  refine ⟨by decide, by decide, by decide, by decide⟩

set_option maxRecDepth 100000 in
theorem char_to_int_mask : ∀ b < 256, ∀ charSigned : Bool,
    (char_to_int charSigned b &&& 0xff) % 0x10000 = b := by
  decide

theorem iso_8859_1_bytes_to_u16_eq (charSigned : Bool) (B : List Nat) (hB : IsByteString B) :
    iso_8859_1_bytes_to_u16 charSigned B = B := by
  unfold iso_8859_1_bytes_to_u16
  simp only
  rw [fill_loop_range,
    map_range_getD (fun ch => (char_to_int charSigned ch &&& 0xff) % 0x10000)]
  conv_rhs => rw [← List.map_id B]
  apply List.map_congr_left
  intro b hb
  exact char_to_int_mask b (hB b hb) charSigned

theorem u16_to_iso_8859_1_bytes_eq (S : List Nat) :
    u16_to_iso_8859_1_bytes S = S.map (fun c => if c ≤ 0xFF then c else 0x3F) := by
  unfold u16_to_iso_8859_1_bytes
  simp only
  rw [fill_loop_range, map_range_getD (fun c => if c ≤ 0xff then c % 0x100 else 0x3F)]
  apply List.map_congr_left
  intro c _
  split_ifs with hc
  · omega
  · rfl

/-- C19: for every byte buffer `B`, whatever the signedness of `char`,
`iso_8859_1_bytes_to_u16 B` has `|B|` units, each the unsigned value of its byte, and
`u16_to_iso_8859_1_bytes` maps it back to `B`; and for every sequence `S` of 16-bit units
`u16_to_iso_8859_1_bytes S` has length `|S|` with byte `i` equal to `S[i]` when
`S[i] ≤ 0xFF` and to `0x3F` (`'?'`) otherwise. -/
theorem iso_8859_1_spec (charSigned : Bool) (B : List Nat) (hB : IsByteString B)
    (S : List Nat) :
    iso_8859_1_bytes_to_u16 charSigned B = B ∧
    (iso_8859_1_bytes_to_u16 charSigned B).length = B.length ∧
    u16_to_iso_8859_1_bytes (iso_8859_1_bytes_to_u16 charSigned B) = B ∧
    u16_to_iso_8859_1_bytes S = S.map (fun c => if c ≤ 0xFF then c else 0x3F) ∧
    (u16_to_iso_8859_1_bytes S).length = S.length := by
  have h1 := iso_8859_1_bytes_to_u16_eq charSigned B hB
  have h2 := u16_to_iso_8859_1_bytes_eq S
  refine ⟨h1, by rw [h1], ?_, h2, by rw [h2, List.length_map]⟩
  rw [h1, u16_to_iso_8859_1_bytes_eq]
  conv_rhs => rw [← List.map_id B]
  apply List.map_congr_left
  intro b hb
  have := hB b hb
  rw [if_pos (by omega)]
  rfl

/-- C19 at the bytes `41 F1 FF` on a platform with signed `char`, and at the units
`0048 0100 00FF`. -/
theorem iso_8859_1_spec_witness :
    iso_8859_1_bytes_to_u16 true [0x41, 0xF1, 0xFF] = [0x41, 0xF1, 0xFF] ∧
    (iso_8859_1_bytes_to_u16 true [0x41, 0xF1, 0xFF]).length = [0x41, 0xF1, 0xFF].length ∧
    u16_to_iso_8859_1_bytes (iso_8859_1_bytes_to_u16 true [0x41, 0xF1, 0xFF]) =
      [0x41, 0xF1, 0xFF] ∧
    u16_to_iso_8859_1_bytes [0x48, 0x100, 0xFF] =
      [0x48, 0x100, 0xFF].map (fun c => if c ≤ 0xFF then c else 0x3F) ∧
    (u16_to_iso_8859_1_bytes [0x48, 0x100, 0xFF]).length = [0x48, 0x100, 0xFF].length :=
  iso_8859_1_spec true [0x41, 0xF1, 0xFF] (by decide) [0x48, 0x100, 0xFF]

/-! ## UTF-32: validation, serialisation and parsing -/

theorem validate_u32_eq (S : List Nat) :
    validate_u32 S =
      if ∀ c ∈ S, c ≤ 0x10FFFF then .ok ()
      else .error (.invalid_argument .invalid_code_points) := by
  induction S with
  | nil => simp [validate_u32]
  | cons c cs ih =>
    rw [validate_u32]
    by_cases hc : c > 0x10FFFF
    · rw [if_pos hc, if_neg]
      intro h
      have := h c (List.mem_cons_self _ _)
      omega
    · rw [if_neg hc, ih]
      by_cases hall : ∀ d ∈ cs, d ≤ 0x10FFFF
      · rw [if_pos hall, if_pos]
        intro d hd
        rcases List.mem_cons.mp hd with rfl | hd
        · omega
        · exact hall d hd
      · rw [if_neg hall, if_neg]
        intro h
        exact hall (fun d hd => h d (List.mem_cons_of_mem _ hd))

theorem set_four_append (pre : List Nat) (a b c d : Nat) (n : Nat) :
    ((((pre ++ List.replicate ((n + 1) * 4) 0).set pre.length a).set (pre.length + 1) b).set
      (pre.length + 2) c).set (pre.length + 3) d =
      (pre ++ [a, b, c, d]) ++ List.replicate (n * 4) 0 := by
  have h : (n + 1) * 4 = n * 4 + 1 + 1 + 1 + 1 := by omega
  rw [h, List.replicate_succ, List.replicate_succ, List.replicate_succ, List.replicate_succ,
    set_append_length]
  have h2 := set_append_length (pre ++ [a]) 0 b (0 :: 0 :: List.replicate (n * 4) 0)
  simp only [List.length_append, List.length_singleton, List.append_assoc,
    List.singleton_append] at h2
  rw [h2]
  have h3 := set_append_length (pre ++ [a, b]) 0 c (0 :: List.replicate (n * 4) 0)
  simp only [List.length_append, List.length_cons, List.length_nil, List.append_assoc,
    List.cons_append, List.nil_append] at h3
  rw [h3]
  have h4 := set_append_length (pre ++ [a, b, c]) 0 d (List.replicate (n * 4) 0)
  simp only [List.length_append, List.length_cons, List.length_nil, List.append_assoc,
    List.cons_append, List.nil_append] at h4
  rw [h4]
  simp

theorem write_loop_four (f0 f1 f2 f3 : Nat → Nat) (str pre : List Nat) :
    (str.foldl
      (fun (st : List Nat × Nat) c =>
        (((((st.1.set st.2 (f0 c)).set (st.2 + 1) (f1 c)).set (st.2 + 2) (f2 c)).set
          (st.2 + 3) (f3 c)), st.2 + 4))
      (pre ++ List.replicate (str.length * 4) 0, pre.length)).1 =
      pre ++ str.flatMap (fun c => [f0 c, f1 c, f2 c, f3 c]) := by
  induction str generalizing pre with
  | nil => simp
  | cons c cs ih =>
    rw [List.foldl_cons, List.length_cons]
    simp only
    rw [set_four_append]
    have := ih (pre ++ [f0 c, f1 c, f2 c, f3 c])
    simp only [List.length_append, List.length_cons, List.length_nil] at this
    rw [this]
    simp

theorem u32_to_u32_bytes_eq (S : List Nat) (h : ∀ c ∈ S, c ≤ 0x10FFFF) :
    u32_to_u32_bytes S =
      .ok (S.flatMap (fun c =>
        [(c >>> 24) &&& 0xFF, (c >>> 16) &&& 0xFF, (c >>> 8) &&& 0xFF, c &&& 0xFF])) := by
  unfold u32_to_u32_bytes
  rw [validate_u32_eq, if_pos h]
  have := write_loop_four (fun c => (c >>> 24) &&& 0xFF) (fun c => (c >>> 16) &&& 0xFF)
    (fun c => (c >>> 8) &&& 0xFF) (fun c => c &&& 0xFF) S []
  simp only [List.nil_append, List.length_nil] at this
  simp only [resize]
  rw [this]

theorem unit_of_four_bytes (b0 b1 b2 b3 : Nat) (h0 : b0 < 0x100) (h1 : b1 < 0x100)
    (h2 : b2 < 0x100) (h3 : b3 < 0x100) :
    ((b0 <<< 24) ||| (b1 <<< 16) ||| (b2 <<< 8) ||| b3) % 0x100000000 =
      b0 * 0x1000000 + b1 * 0x10000 + b2 * 0x100 + b3 := by
  rw [Nat.shiftLeft_eq, Nat.shiftLeft_eq, Nat.shiftLeft_eq]
  have k1 : 2 ^ 24 * b0 + b1 * 2 ^ 16 = 2 ^ 24 * b0 ||| b1 * 2 ^ 16 :=
    Nat.mul_add_lt_is_or (by omega) b0
  have k2 : 2 ^ 16 * (2 ^ 8 * b0 + b1) + b2 * 2 ^ 8 =
      2 ^ 16 * (2 ^ 8 * b0 + b1) ||| b2 * 2 ^ 8 :=
    Nat.mul_add_lt_is_or (by omega) _
  have k3 : 2 ^ 8 * (2 ^ 8 * (2 ^ 8 * b0 + b1) + b2) + b3 =
      2 ^ 8 * (2 ^ 8 * (2 ^ 8 * b0 + b1) + b2) ||| b3 :=
    Nat.mul_add_lt_is_or (by omega) _
  have e1 : 2 ^ 24 * b0 + b1 * 2 ^ 16 = 2 ^ 16 * (2 ^ 8 * b0 + b1) := by omega
  have e2 : 2 ^ 16 * (2 ^ 8 * b0 + b1) + b2 * 2 ^ 8 =
      2 ^ 8 * (2 ^ 8 * (2 ^ 8 * b0 + b1) + b2) := by omega
  rw [Nat.mul_comm b0 (2 ^ 24), ← k1, e1, ← k2, e2, ← k3]
  omega

theorem four_bytes_of_unit (c : Nat) :
    (c >>> 24) &&& 0xFF = c / 0x1000000 % 0x100 ∧ (c >>> 16) &&& 0xFF = c / 0x10000 % 0x100 ∧
    (c >>> 8) &&& 0xFF = c / 0x100 % 0x100 ∧ c &&& 0xFF = c % 0x100 := by
  have e : (0xFF : Nat) = 2 ^ 8 - 1 := by decide
  rw [e, Nat.and_pow_two_sub_one_eq_mod, Nat.and_pow_two_sub_one_eq_mod,
    Nat.and_pow_two_sub_one_eq_mod, Nat.and_pow_two_sub_one_eq_mod,
    Nat.shiftRight_eq_div_pow, Nat.shiftRight_eq_div_pow, Nat.shiftRight_eq_div_pow]
  refine ⟨by omega, by omega, by omega, by omega⟩

theorem u32_bytes_to_u32_eq (B : List Nat) (hlen : B.length % 4 = 0) :
    u32_bytes_to_u32 B =
      .ok ((List.range (B.length / 4)).map (fun k =>
        ((B.getD (4 * k) 0 <<< 24) ||| (B.getD (4 * k + 1) 0 <<< 16) |||
          (B.getD (4 * k + 2) 0 <<< 8) ||| B.getD (4 * k + 3) 0) % 0x100000000)) := by
  unfold u32_bytes_to_u32
  rw [if_neg (by omega)]
  have := fill_loop_stride (fun i =>
    ((B.getD i 0 <<< 24) ||| (B.getD (i + 1) 0 <<< 16) |||
      (B.getD (i + 2) 0 <<< 8) ||| B.getD (i + 3) 0) % 0x100000000) (B.length / 4) []
  simp only [List.length_nil, Nat.zero_mul, List.nil_append] at this
  simp only [resize]
  rw [this, range_stride, List.map_map]
  refine congrArg Except.ok ?_
  apply List.map_congr_left
  intro k _
  simp only [Function.comp, Nat.zero_add]

theorem getD_lt_of_isByteString (B : List Nat) (hB : IsByteString B) (j : Nat) :
    B.getD j 0 < 0x100 := by
  rw [List.getD_eq_getElem?_getD]
  by_cases hj : j < B.length
  · rw [List.getElem?_eq_getElem hj]
    exact hB _ (List.getElem_mem hj)
  · rw [List.getElem?_eq_none (by omega)]
    decide

theorem u32_units_cons (b0 b1 b2 b3 : Nat) (rest : List Nat) :
    (List.range ((b0 :: b1 :: b2 :: b3 :: rest).length / 4)).map (fun k =>
      (((b0 :: b1 :: b2 :: b3 :: rest).getD (4 * k) 0 <<< 24) |||
        ((b0 :: b1 :: b2 :: b3 :: rest).getD (4 * k + 1) 0 <<< 16) |||
        ((b0 :: b1 :: b2 :: b3 :: rest).getD (4 * k + 2) 0 <<< 8) |||
        (b0 :: b1 :: b2 :: b3 :: rest).getD (4 * k + 3) 0) % 0x100000000) =
      (((b0 <<< 24) ||| (b1 <<< 16) ||| (b2 <<< 8) ||| b3) % 0x100000000) ::
        (List.range (rest.length / 4)).map (fun k =>
          ((rest.getD (4 * k) 0 <<< 24) ||| (rest.getD (4 * k + 1) 0 <<< 16) |||
            (rest.getD (4 * k + 2) 0 <<< 8) ||| rest.getD (4 * k + 3) 0) % 0x100000000) := by
  have h : (b0 :: b1 :: b2 :: b3 :: rest).length / 4 = rest.length / 4 + 1 := by
    simp only [List.length_cons]; omega
  rw [h, List.range_succ_eq_map, List.map_cons, List.map_map]
  simp only [Nat.mul_zero, List.getD_cons_zero, Nat.zero_add, List.getD_cons_succ,
    List.cons.injEq, true_and]
  apply List.map_congr_left
  intro k _
  have e0 : 4 * Nat.succ k = 4 * k + 1 + 1 + 1 + 1 := by omega
  have e1 : 4 * Nat.succ k + 1 = 4 * k + 1 + 1 + 1 + 1 + 1 := by omega
  have e2 : 4 * Nat.succ k + 2 = 4 * k + 2 + 1 + 1 + 1 + 1 := by omega
  have e3 : 4 * Nat.succ k + 3 = 4 * k + 3 + 1 + 1 + 1 + 1 := by omega
  simp only [Function.comp, e0, e1, e2, e3, List.getD_cons_succ]

theorem length_flatMap_four (f0 f1 f2 f3 : Nat → Nat) (S : List Nat) :
    (S.flatMap (fun c => [f0 c, f1 c, f2 c, f3 c])).length = 4 * S.length := by
  induction S with
  | nil => rfl
  | cons c cs ih =>
    rw [List.flatMap_cons, List.length_append, ih, List.length_cons]
    simp only [List.length_cons, List.length_nil]
    omega

theorem u32_bytes_to_u32_flatMap (S : List Nat) (h : ∀ c ∈ S, c < 0x100000000) :
    u32_bytes_to_u32 (S.flatMap (fun c =>
      [c / 0x1000000 % 0x100, c / 0x10000 % 0x100, c / 0x100 % 0x100, c % 0x100])) =
      .ok S := by
  rw [u32_bytes_to_u32_eq _ (by rw [length_flatMap_four]; omega)]
  refine congrArg Except.ok ?_
  induction S with
  | nil => rfl
  | cons c cs ih =>
    rw [List.flatMap_cons]
    simp only [List.cons_append, List.nil_append]
    rw [u32_units_cons, ih (fun d hd => h d (List.mem_cons_of_mem _ hd)),
      unit_of_four_bytes _ _ _ _ (Nat.mod_lt _ (by decide)) (Nat.mod_lt _ (by decide))
        (Nat.mod_lt _ (by decide)) (Nat.mod_lt _ (by decide))]
    have := h c (List.mem_cons_self _ _)
    congr 1
    omega

/-! ## C13, C14, C15: UTF-32 bytes and validation -/

/-- C13: for every UTF-32 sequence `S` whose units are all at most `0x10FFFF`,
`u32_to_u32_bytes S` returns `4 * |S|` bytes, the four bytes of each unit most significant
first, and `u32_bytes_to_u32` of that buffer returns `S`. -/
theorem u32_bytes_to_u32_u32_to_u32_bytes (S : List Nat) (h : ∀ c ∈ S, c ≤ 0x10FFFF) :
    ∃ bytes, u32_to_u32_bytes S = .ok bytes ∧ bytes.length = 4 * S.length ∧
      bytes = S.flatMap (fun c =>
        [c / 0x1000000 % 0x100, c / 0x10000 % 0x100, c / 0x100 % 0x100, c % 0x100]) ∧
      u32_bytes_to_u32 bytes = .ok S := by
  have hb : S.flatMap (fun c =>
      [(c >>> 24) &&& 0xFF, (c >>> 16) &&& 0xFF, (c >>> 8) &&& 0xFF, c &&& 0xFF]) =
      S.flatMap (fun c =>
        [c / 0x1000000 % 0x100, c / 0x10000 % 0x100, c / 0x100 % 0x100, c % 0x100]) := by
    apply List.flatMap_congr
    intro c _
    obtain ⟨e0, e1, e2, e3⟩ := four_bytes_of_unit c
    rw [e0, e1, e2, e3]
  refine ⟨_, u32_to_u32_bytes_eq S h, by rw [length_flatMap_four], hb, ?_⟩
  rw [hb]
  exact u32_bytes_to_u32_flatMap S (fun c hc => by have := h c hc; omega)

/-- C13 at the test's U+0041, U+3042 and U+1F600. -/
theorem u32_bytes_to_u32_u32_to_u32_bytes_witness :
    ∃ bytes, u32_to_u32_bytes [0x41, 0x3042, 0x1F600] = .ok bytes ∧
      bytes.length = 4 * [0x41, 0x3042, 0x1F600].length ∧
      bytes = [0x41, 0x3042, 0x1F600].flatMap (fun c =>
        [c / 0x1000000 % 0x100, c / 0x10000 % 0x100, c / 0x100 % 0x100, c % 0x100]) ∧
      u32_bytes_to_u32 bytes = .ok [0x41, 0x3042, 0x1F600] :=
  u32_bytes_to_u32_u32_to_u32_bytes [0x41, 0x3042, 0x1F600] (by decide)

/-- C14: for every byte buffer `B`, `u32_bytes_to_u32 B` throws `std::invalid_argument`
("Invalid byte vector length for UTF-32 conversion") if and only if `|B|` is not a multiple
of 4; when it is, the call returns `|B| / 4` units, unit `i` being
`B[4i] * 2^24 + B[4i+1] * 2^16 + B[4i+2] * 2^8 + B[4i+3]` on the unsigned byte values. -/
theorem u32_bytes_to_u32_spec (B : List Nat) (hB : IsByteString B) :
    (u32_bytes_to_u32 B = .error (.invalid_argument .invalid_length_utf32) ↔
      B.length % 4 ≠ 0) ∧
    (B.length % 4 = 0 →
      ∃ result, u32_bytes_to_u32 B = .ok result ∧ result.length = B.length / 4 ∧
        result = (List.range (B.length / 4)).map (fun i =>
          B.getD (4 * i) 0 * 0x1000000 + B.getD (4 * i + 1) 0 * 0x10000 +
            B.getD (4 * i + 2) 0 * 0x100 + B.getD (4 * i + 3) 0)) := by
  have hok : B.length % 4 = 0 →
      ∃ result, u32_bytes_to_u32 B = .ok result ∧ result.length = B.length / 4 ∧
        result = (List.range (B.length / 4)).map (fun i =>
          B.getD (4 * i) 0 * 0x1000000 + B.getD (4 * i + 1) 0 * 0x10000 +
            B.getD (4 * i + 2) 0 * 0x100 + B.getD (4 * i + 3) 0) := by
    intro hlen
    refine ⟨_, u32_bytes_to_u32_eq B hlen, by simp, ?_⟩
    apply List.map_congr_left
    intro i _
    exact unit_of_four_bytes _ _ _ _ (getD_lt_of_isByteString B hB _)
      (getD_lt_of_isByteString B hB _) (getD_lt_of_isByteString B hB _)
      (getD_lt_of_isByteString B hB _)
  refine ⟨⟨fun h hlen => ?_, fun h => ?_⟩, hok⟩
  · obtain ⟨r, hr, -⟩ := hok hlen
    rw [hr] at h
    cases h
  · unfold u32_bytes_to_u32
    rw [if_pos h]

/-- C14 at the twelve bytes of the test `u32_bytes_to_u32_Success`. -/
theorem u32_bytes_to_u32_spec_witness :
    IsByteString [0x00, 0x00, 0x00, 0x41, 0x00, 0x00, 0x30, 0x42, 0x00, 0x01, 0xF6, 0x00] ∧
    ∃ result,
      u32_bytes_to_u32 [0x00, 0x00, 0x00, 0x41, 0x00, 0x00, 0x30, 0x42, 0x00, 0x01, 0xF6, 0x00]
        = .ok result ∧ result = [0x41, 0x3042, 0x1F600] :=
  ⟨by decide,
    match (u32_bytes_to_u32_spec
      [0x00, 0x00, 0x00, 0x41, 0x00, 0x00, 0x30, 0x42, 0x00, 0x01, 0xF6, 0x00]
      (by decide)).2 (by decide) with
    | ⟨r, h1, _, h3⟩ => ⟨r, h1, h3.trans (by decide)⟩⟩

/-- C15: `validate_u32` succeeds exactly when every unit is at most `0x10FFFF`; and on every
input that contains a unit above `0x10FFFF`, `validate_u32`, `u32_to_u8`, `u32_to_u16` and
`u32_to_u32_bytes` all throw `std::invalid_argument` ("The string contains invalid UTF-32 code
points.") and return nothing. -/
theorem validate_u32_spec (S : List Nat) :
    (validate_u32 S = .ok () ↔ ∀ c ∈ S, c ≤ 0x10FFFF) ∧
    ((∃ c ∈ S, c > 0x10FFFF) →
      validate_u32 S = .error (.invalid_argument .invalid_code_points) ∧
      u32_to_u8 S = .error (.invalid_argument .invalid_code_points) ∧
      u32_to_u16 S = .error (.invalid_argument .invalid_code_points) ∧
      u32_to_u32_bytes S = .error (.invalid_argument .invalid_code_points)) := by
  constructor
  · rw [validate_u32_eq]
    by_cases hall : ∀ c ∈ S, c ≤ 0x10FFFF
    · simp [hall]
    · rw [if_neg hall]
      exact ⟨fun h => (nomatch h), fun h => absurd h hall⟩
  · rintro ⟨c, hc, hgt⟩
    have hv : validate_u32 S = .error (.invalid_argument .invalid_code_points) := by
      rw [validate_u32_eq, if_neg]
      intro hall
      have := hall c hc
      omega
    have h8 : u32_to_u8 S = .error (.invalid_argument .invalid_code_points) := by
      unfold u32_to_u8
      rw [hv]
    refine ⟨hv, h8, ?_, ?_⟩
    · unfold u32_to_u16
      rw [h8]
    · unfold u32_to_u32_bytes
      rw [hv]

/-! ## C16: UTF-32 to UTF-16 through UTF-8 -/

theorem validiate_u8_flatMap_encode (S : List Nat) (h : ∀ c ∈ S, c ≤ 0x1FFFFF) :
    validiate_u8 (S.flatMap utf8_encode) = .ok () := by
  induction S with
  | nil => exact validiate_u8_nil
  | cons c cs ih =>
    rw [List.flatMap_cons, validiate_u8_encode c (h c (List.mem_cons_self _ _))]
    exact ih (fun d hd => h d (List.mem_cons_of_mem _ hd))

theorem codecvt_utf8_to_bytes_eq (S : List Nat) (h : ∀ c ∈ S, IsScalarValue c) :
    codecvt_utf8_to_bytes S = .ok (S.flatMap utf8_encode) := by
  induction S with
  | nil => simp [codecvt_utf8_to_bytes]
  | cons c cs ih =>
    obtain ⟨h1, h2⟩ := h c (List.mem_cons_self _ _)
    rw [codecvt_utf8_to_bytes, if_neg (by omega), ih (fun d hd => h d (List.mem_cons_of_mem _ hd))]
    rfl

theorem codecvt_from_bytes_flatMap (S : List Nat) (h : ∀ c ∈ S, IsScalarValue c) :
    codecvt_from_bytes (S.flatMap utf8_encode) = .ok (S.flatMap utf16_encode) := by
  induction S with
  | nil => simp [codecvt_from_bytes]
  | cons c cs ih =>
    rw [List.flatMap_cons, codecvt_from_bytes_encode c (h c (List.mem_cons_self _ _)),
      ih (fun d hd => h d (List.mem_cons_of_mem _ hd))]
    rfl

theorem codecvt_utf8_from_bytes_encode (c : Nat) (hc : IsScalarValue c) (t : List Nat) :
    codecvt_utf8_from_bytes (utf8_encode c ++ t) =
      match codecvt_utf8_from_bytes t with
      | .error e => .error e
      | .ok tail => .ok (c :: tail) := by
  obtain ⟨b0, more, h1, h2⟩ := utf8_decode_one_encode c hc t
  rw [h1, List.cons_append, codecvt_utf8_from_bytes, h2]
  simp only [List.drop_left]

theorem utf16_encode_eq_direct (c : Nat) : utf16_encode c = utf32_to_utf16_direct c := by
  have e : (0x3FF : Nat) = 2 ^ 10 - 1 := by decide
  unfold utf16_encode utf32_to_utf16_direct
  rw [e, Nat.and_pow_two_sub_one_eq_mod, Nat.shiftRight_eq_div_pow]

/-- C16: on every sequence of scalar values (at most `0x10FFFF`, not surrogates)
`u32_to_u16`, which goes through `u32_to_u8` and `u8_to_u16`, returns the direct UTF-32 to
UTF-16 encoding: one unit for a scalar below `0x10000`, the surrogate pair for a scalar from
`0x10000`. U+1F600 yields `D83D DE00`, and `u16_to_u32` maps that pair back to U+1F600. -/
theorem u32_to_u16_eq_direct (S : List Nat) (h : ∀ c ∈ S, IsScalarValue c) :
    u32_to_u16 S = .ok (S.flatMap utf32_to_utf16_direct) ∧
    u32_to_u16 [0x1F600] = .ok [0xD83D, 0xDE00] ∧
    u16_to_u32 [0xD83D, 0xDE00] = .ok [0x1F600] := by
  have hgen : ∀ T : List Nat, (∀ c ∈ T, IsScalarValue c) →
      u32_to_u16 T = .ok (T.flatMap utf32_to_utf16_direct) := by
    intro T hT
    have hmax : ∀ c ∈ T, c ≤ 0x10FFFF := fun c hc => (hT c hc).1
    unfold u32_to_u16 u32_to_u8
    rw [validate_u32_eq, if_pos hmax]
    simp only
    rw [codecvt_utf8_to_bytes_eq T hT]
    simp only
    unfold u8_to_u16
    rw [validiate_u8_flatMap_encode T (fun c hc => by have := hmax c hc; omega)]
    simp only
    rw [codecvt_from_bytes_flatMap T hT]
    refine congrArg Except.ok ?_
    apply List.flatMap_congr
    intro c _
    exact utf16_encode_eq_direct c
  refine ⟨hgen S h, ?_, ?_⟩
  · rw [hgen [0x1F600] (by decide)]
    rfl
  · have h8 : u16_to_u8 [0xD83D, 0xDE00] = .ok (utf8_encode 0x1F600 ++ []) := by
      simp +decide [u16_to_u8, validate_u16_cons, validate_u16_nil, codecvt_to_bytes]
    unfold u16_to_u32
    rw [h8]
    simp only
    unfold u8_to_u32
    rw [validiate_u8_encode 0x1F600 (by decide), validiate_u8_nil]
    simp only
    rw [codecvt_utf8_from_bytes_encode 0x1F600 (by decide)]
    simp [codecvt_utf8_from_bytes]

/-- C16 at U+0041, U+3042 and U+1F600. -/
theorem u32_to_u16_eq_direct_witness :
    (∀ c ∈ [0x41, 0x3042, 0x1F600], IsScalarValue c) ∧
    u32_to_u16 [0x41, 0x3042, 0x1F600] =
      .ok ([0x41, 0x3042, 0x1F600].flatMap utf32_to_utf16_direct) :=
  ⟨by decide, (u32_to_u16_eq_direct [0x41, 0x3042, 0x1F600] (by decide)).1⟩

/-! ## The UTF-8 validator run by run -/

theorem continuation_bytes_complete (b : Nat) (R : List Nat) (hR : IsByteString R) (n : Nat) :
    continuation_bytes (b :: R) 0 n =
      if ∀ j, j < n → j < R.length ∧ 0x80 ≤ R.getD j 0 ∧ R.getD j 0 ≤ 0xBF then .ok ()
      else .error (.invalid_argument .missing_continuation_byte) := by
  by_cases hall : ∀ j, j < n → j < R.length ∧ 0x80 ≤ R.getD j 0 ∧ R.getD j 0 ≤ 0xBF
  · rw [if_pos hall]
    apply continuation_bytes_eq
    intro j hj1 hj2
    obtain ⟨k, rfl⟩ : ∃ k, j = k + 1 := ⟨j - 1, by omega⟩
    obtain ⟨h1, h2, h3⟩ := hall k (by omega)
    simp only [Nat.zero_add, List.length_cons, List.getD_cons_succ]
    omega
  · rw [if_neg hall]
    unfold continuation_bytes
    rw [if_pos]
    simp only [not_forall] at hall
    obtain ⟨k, hk, hbad⟩ := hall
    rw [List.any_eq_true]
    refine ⟨k + 1, by rw [List.mem_range'_1]; omega, ?_⟩
    simp only [Nat.zero_add, List.length_cons, List.getD_cons_succ, ge_iff_le,
      Nat.add_le_add_iff_right, Bool.or_eq_true, decide_eq_true_eq, bne_iff_ne, ne_eq]
    by_cases hlen : k < R.length
    · right
      obtain ⟨-, -, -, -, -, -, h7⟩ := land_masks _ (getD_lt_of_isByteString R hR k)
      rw [h7]
      omega
    · left
      omega

theorem followed_by_iff (R : List Nat) (lo hi : Nat) (hlo : 0 < lo) :
    followed_by R lo hi = true ↔ lo ≤ R.getD 0 0 ∧ R.getD 0 0 ≤ hi := by
  cases R with
  | nil => simp [followed_by]; omega
  | cons c cs => simp [followed_by]

theorem remaining_continuation (b : Nat) (R : List Nat) (hR : IsByteString R) (n : Nat)
    (hn : run_continuations b = n) :
    (match continuation_bytes (b :: R) 0 n with
      | .error e => .error e
      | .ok _ => validiate_u8 (R.drop n)) =
      if run_complete b R then validiate_u8 (R.drop (run_continuations b))
      else .error (.invalid_argument .missing_continuation_byte) := by
  subst hn
  rw [continuation_bytes_complete b R hR (run_continuations b)]
  unfold run_complete
  split_ifs <;> rfl

theorem validiate_u8_step (b : Nat) (R : List Nat) (hb : b < 0x100) (hR : IsByteString R) :
    validiate_u8 (b :: R) =
      match run_reason b R with
      | some r => .error (.invalid_argument r)
      | none => validiate_u8 (R.drop (run_continuations b)) := by
  have hnx : R.getD 0 0 < 0x100 := getD_lt_of_isByteString R hR 0
  have f1 := followed_by_iff R 0x80 0x9F (by decide)
  have f2 := followed_by_iff R 0x80 0x8F (by decide)
  rw [validiate_u8_cons, remaining_bytes_eq _ _ _ hb (fun _ => by simpa using hnx)]
  simp only [Nat.zero_add, List.getD_cons_succ]
  unfold run_reason
  by_cases c1 : b < 0x80
  · have hn : run_continuations b = 0 := by simp [run_continuations, c1]
    rw [if_pos c1, if_neg (by omega), if_neg (by omega)]
    simp only
    rw [remaining_continuation b R hR 0 hn]
    split_ifs <;> rfl
  by_cases c2 : b < 0xC0
  · rw [if_neg c1, if_pos c2, if_pos (by omega)]
  by_cases c3 : b < 0xC2
  · rw [if_neg c1, if_neg c2, if_pos c3, if_neg (by omega), if_pos (by omega)]
  by_cases c4 : b < 0xE0
  · have hn : run_continuations b = 1 := by simp [run_continuations, c1, c4]
    rw [if_neg c1, if_neg c2, if_neg c3, if_pos c4, if_neg (by omega), if_neg (by omega)]
    simp only
    rw [remaining_continuation b R hR 1 hn]
    split_ifs <;> rfl
  by_cases c5 : b < 0xF0
  · have hn : run_continuations b = 2 := by simp [run_continuations, c1, c4, c5]
    rw [if_neg c1, if_neg c2, if_neg c3, if_neg c4, if_pos c5]
    by_cases ho : b = 0xE0 ∧ 0x80 ≤ R.getD 0 0 ∧ R.getD 0 0 < 0xA0
    · rw [if_pos ho, if_neg (by omega),
        if_pos (Or.inr (Or.inr (Or.inl ⟨ho.1, f1.mpr ⟨ho.2.1, by omega⟩⟩)))]
    · rw [if_neg ho, if_neg (by omega), if_neg]
      · simp only
        rw [remaining_continuation b R hR 2 hn]
        split_ifs <;> rfl
      · rintro (h | h | ⟨h1, h2⟩ | ⟨h1, h2⟩)
        · omega
        · omega
        · exact ho ⟨h1, (f1.mp h2).1, by have := (f1.mp h2).2; omega⟩
        · omega
  by_cases c6 : b < 0xF8
  · have hn : run_continuations b = 3 := by
      simp only [run_continuations, if_neg c1, if_neg c4, if_neg c5]
    rw [if_neg c1, if_neg c2, if_neg c3, if_neg c4, if_neg c5, if_pos c6]
    by_cases ho : b = 0xF0 ∧ 0x80 ≤ R.getD 0 0 ∧ R.getD 0 0 < 0x90
    · rw [if_pos ho, if_neg (by omega),
        if_pos (Or.inr (Or.inr (Or.inr ⟨ho.1, f2.mpr ⟨ho.2.1, by omega⟩⟩)))]
    · rw [if_neg ho, if_neg (by omega), if_neg]
      · simp only
        rw [remaining_continuation b R hR 3 hn]
        split_ifs <;> rfl
      · rintro (h | h | ⟨h1, h2⟩ | ⟨h1, h2⟩)
        · omega
        · omega
        · omega
        · exact ho ⟨h1, (f2.mp h2).1, by have := (f2.mp h2).2; omega⟩
  · rw [if_neg c1, if_neg c2, if_neg c3, if_neg c4, if_neg c5, if_neg c6, if_pos (by omega)]

theorem run_reason_none_congr (b : Nat) (R R2 : List Nat) (h : run_reason b R = none)
    (hagree : ∀ j, j < run_continuations b → j < R2.length ∧ R2.getD j 0 = R.getD j 0) :
    run_reason b R2 = none := by
  have f1 := followed_by_iff R 0x80 0x9F (by decide)
  have f2 := followed_by_iff R 0x80 0x8F (by decide)
  have g1 := followed_by_iff R2 0x80 0x9F (by decide)
  have g2 := followed_by_iff R2 0x80 0x8F (by decide)
  unfold run_reason at h ⊢
  by_cases c1 : (0x80 ≤ b ∧ b ≤ 0xBF) ∨ (0xF8 ≤ b ∧ b ≤ 0xFF)
  · rw [if_pos c1] at h
    cases h
  rw [if_neg c1] at h ⊢
  by_cases c2 : b = 0xC0 ∨ b = 0xC1 ∨ (b = 0xE0 ∧ followed_by R 0x80 0x9F) ∨
      (b = 0xF0 ∧ followed_by R 0x80 0x8F)
  · rw [if_pos c2] at h
    cases h
  rw [if_neg c2] at h
  by_cases c3 : run_complete b R
  · have c2' : ¬ (b = 0xC0 ∨ b = 0xC1 ∨ (b = 0xE0 ∧ followed_by R2 0x80 0x9F) ∨
        (b = 0xF0 ∧ followed_by R2 0x80 0x8F)) := by
      rintro (hb | hb | ⟨hb, hf⟩ | ⟨hb, hf⟩)
      · exact c2 (Or.inl hb)
      · exact c2 (Or.inr (Or.inl hb))
      · have := (hagree 0 (by rw [hb]; decide)).2
        rw [g1, this, ← f1] at hf
        exact c2 (Or.inr (Or.inr (Or.inl ⟨hb, hf⟩)))
      · have := (hagree 0 (by rw [hb]; decide)).2
        rw [g2, this, ← f2] at hf
        exact c2 (Or.inr (Or.inr (Or.inr ⟨hb, hf⟩)))
    rw [if_neg c2', if_pos]
    intro j hj
    obtain ⟨h1, h2⟩ := hagree j hj
    obtain ⟨-, h3, h4⟩ := c3 j hj
    rw [h2]
    exact ⟨h1, h3, h4⟩
  · rw [if_neg c3] at h
    cases h

theorem run_complete_of_reason_none (b : Nat) (R : List Nat) (h : run_reason b R = none) :
    run_complete b R := by
  unfold run_reason at h
  split_ifs at h with c1 c2 c3
  exact c3

theorem accepted_run_take (b : Nat) (R : List Nat) (h : run_reason b R = none) :
    IsAcceptedRun (b :: R.take (run_continuations b)) ∧
      run_continuations b ≤ R.length := by
  have hc := run_complete_of_reason_none b R h
  have hle : run_continuations b ≤ R.length := by
    by_cases h0 : run_continuations b = 0
    · omega
    · have := (hc (run_continuations b - 1) (by omega)).1
      omega
  refine ⟨⟨b, _, rfl, by rw [List.length_take]; omega, ?_⟩, hle⟩
  apply run_reason_none_congr b R _ h
  intro j hj
  refine ⟨by rw [List.length_take]; omega, ?_⟩
  rw [List.getD_eq_getElem?_getD, List.getD_eq_getElem?_getD, List.getElem?_take_of_lt hj]

theorem isByteString_of_append (P X : List Nat) (h : IsByteString (P ++ X)) :
    IsByteString P ∧ IsByteString X :=
  ⟨fun b hb => h b (List.mem_append_left _ hb), fun b hb => h b (List.mem_append_right _ hb)⟩

theorem validiate_u8_accepted_run (run X : List Nat) (hrun : IsAcceptedRun run)
    (hbytes : IsByteString (run ++ X)) : validiate_u8 (run ++ X) = validiate_u8 X := by
  obtain ⟨b, R, rfl, hlen, hr⟩ := hrun
  have hb : b < 0x100 := hbytes b (by simp)
  have hRX : IsByteString (R ++ X) := fun c hc => hbytes c (by
    rw [List.cons_append]; exact List.mem_cons_of_mem _ hc)
  have hr2 : run_reason b (R ++ X) = none := by
    apply run_reason_none_congr b R _ hr
    intro j hj
    exact ⟨by rw [List.length_append]; omega, List.getD_append R X 0 j (by omega)⟩
  rw [List.cons_append, validiate_u8_step b (R ++ X) hb hRX, hr2]
  simp only
  rw [← hlen, List.drop_left]

theorem validiate_u8_skip (P X : List Nat) (hP : AcceptedRuns P)
    (hbytes : IsByteString (P ++ X)) : validiate_u8 (P ++ X) = validiate_u8 X := by
  obtain ⟨runs, hall, rfl⟩ := hP
  induction runs with
  | nil => simp
  | cons run runs ih =>
    rw [List.flatten_cons, List.append_assoc] at hbytes ⊢
    rw [validiate_u8_accepted_run run _ (hall run (List.mem_cons_self _ _)) hbytes]
    exact ih (fun x hx => hall x (List.mem_cons_of_mem _ hx))
      (isByteString_of_append _ _ hbytes).2

theorem acceptedRuns_nil : AcceptedRuns [] :=
  ⟨[], by simp, by simp⟩

theorem acceptedRuns_append (run P : List Nat) (hrun : IsAcceptedRun run)
    (hP : AcceptedRuns P) : AcceptedRuns (run ++ P) := by
  obtain ⟨runs, hall, rfl⟩ := hP
  refine ⟨run :: runs, ?_, by simp⟩
  intro x hx
  rcases List.mem_cons.mp hx with rfl | hx
  · exact hrun
  · exact hall x hx

/-- The two outcomes of `validiate_u8` on a byte string, each with the shape of the input
that produces it. -/
theorem validiate_u8_cases (s : List Nat) (hs : IsByteString s) :
    (validiate_u8 s = .ok () ∧ AcceptedRuns s) ∨
    (∃ P b R r, s = P ++ b :: R ∧ AcceptedRuns P ∧ run_reason b R = some r ∧
      validiate_u8 s = .error (.invalid_argument r)) := by
  generalize hn : s.length = n
  induction n using Nat.strong_induction_on generalizing s with
  | _ n ih =>
    cases s with
    | nil => exact Or.inl ⟨validiate_u8_nil, acceptedRuns_nil⟩
    | cons b R =>
      have hb : b < 0x100 := hs b (List.mem_cons_self _ _)
      have hR : IsByteString R := fun c hc => hs c (List.mem_cons_of_mem _ hc)
      have hstep := validiate_u8_step b R hb hR
      cases hr : run_reason b R with
      | some r =>
        rw [hr] at hstep
        exact Or.inr ⟨[], b, R, r, rfl, acceptedRuns_nil, hr, hstep⟩
      | none =>
        rw [hr] at hstep
        simp only at hstep
        obtain ⟨hrun, hle⟩ := accepted_run_take b R hr
        have hsplit : b :: R = (b :: R.take (run_continuations b)) ++
            R.drop (run_continuations b) := by
          rw [List.cons_append, List.take_append_drop]
        have hdrop : IsByteString (R.drop (run_continuations b)) :=
          fun c hc => hR c (List.mem_of_mem_drop hc)
        rcases ih (R.drop (run_continuations b)).length
            (by rw [List.length_drop]; simp at hn; omega) _ hdrop rfl with
          ⟨h1, h2⟩ | ⟨P, b2, R2, r, h1, h2, h3, h4⟩
        · refine Or.inl ⟨by rw [hstep]; exact h1, ?_⟩
          rw [hsplit]
          exact acceptedRuns_append _ _ hrun h2
        · refine Or.inr ⟨(b :: R.take (run_continuations b)) ++ P, b2, R2, r, ?_,
            acceptedRuns_append _ _ hrun h2, h3, by rw [hstep]; exact h4⟩
          rw [List.append_assoc, ← h1]
          exact hsplit

/-! ## C20: the reason `validiate_u8` reports -/

/-- C20: on every byte string `validiate_u8` fails with reason `e` exactly when the input is
a concatenation of accepted runs followed by a run that is rejected, and `e` is
`std::invalid_argument` with the reason of that first rejected run: invalid start byte for
a lead in `80-BF` or `F8-FF`; overlong encoding for a lead `C0` or `C1`, for `E0` followed
by `80-9F` and for `F0` followed by `80-8F`; missing continuation byte in every other case.
`C0 80` and `F0 80 80 80` fail as overlong, `80` as invalid start byte and `E2 82` as missing
continuation byte. -/
theorem validiate_u8_failure_reason (s : List Nat) (hs : IsByteString s) (e : Exception) :
    (validiate_u8 s = .error e ↔
      ∃ P b R r, s = P ++ b :: R ∧ AcceptedRuns P ∧ run_reason b R = some r ∧
        e = .invalid_argument r) ∧
    validiate_u8 [0xC0, 0x80] = .error (.invalid_argument .overlong_encoding) ∧
    validiate_u8 [0xF0, 0x80, 0x80, 0x80] = .error (.invalid_argument .overlong_encoding) ∧
    validiate_u8 [0x80] = .error (.invalid_argument .invalid_start_byte) ∧
    validiate_u8 [0xE2, 0x82] = .error (.invalid_argument .missing_continuation_byte) := by
  refine ⟨⟨fun h => ?_, ?_⟩, ?_, ?_, ?_, ?_⟩
  · rcases validiate_u8_cases s hs with ⟨h1, _⟩ | ⟨P, b, R, r, h1, h2, h3, h4⟩
    · rw [h] at h1
      cases h1
    · rw [h] at h4
      cases h4
      exact ⟨P, b, R, r, h1, h2, h3, rfl⟩
  · rintro ⟨P, b, R, r, rfl, hP, hr, rfl⟩
    obtain ⟨-, hbR⟩ := isByteString_of_append P (b :: R) hs
    rw [validiate_u8_skip P (b :: R) hP hs,
      validiate_u8_step b R (hbR b (List.mem_cons_self _ _))
        (fun c hc => hbR c (List.mem_cons_of_mem _ hc)), hr]
  · rw [validiate_u8_step _ _ (by decide) (by decide),
      show run_reason 0xC0 [0x80] = some .overlong_encoding by decide]
  · rw [validiate_u8_step _ _ (by decide) (by decide),
      show run_reason 0xF0 [0x80, 0x80, 0x80] = some .overlong_encoding by decide]
  · rw [validiate_u8_step _ _ (by decide) (by decide),
      show run_reason 0x80 [] = some .invalid_start_byte by decide]
  · rw [validiate_u8_step _ _ (by decide) (by decide),
      show run_reason 0xE2 [0x82] = some .missing_continuation_byte by decide]

/-- C20 at the bytes `41 E0 80`: after the accepted run `41`, the run `E0 80` is rejected
as overlong, although it is also truncated. -/
theorem validiate_u8_failure_reason_witness :
    IsByteString [0x41, 0xE0, 0x80] ∧
    validiate_u8 [0x41, 0xE0, 0x80] = .error (.invalid_argument .overlong_encoding) :=
  ⟨by decide,
    (validiate_u8_failure_reason [0x41, 0xE0, 0x80] (by decide)
      (.invalid_argument .overlong_encoding)).1.mpr
      ⟨[0x41], 0xE0, [0x80], .overlong_encoding, rfl,
        acceptedRuns_append [0x41] [] ⟨0x41, [], rfl, by decide, by decide⟩ acceptedRuns_nil,
        by decide, rfl⟩⟩

/-! ## C22: a buffer of odd length -/

/-- C22 (the code departs from it): `u16_bytes_to_u16` does not reject a buffer whose length
is odd. On the three bytes `00 41 42` it returns the single unit `0041` and drops the byte
`42`, and the same after a big-endian BOM, on `FE FF 00 41 42`; nothing is thrown. The
sibling `u32_bytes_to_u32` does test its length and throws on the three bytes `00 00 00`. -/
theorem u16_bytes_to_u16_drops_trailing_byte :
    IsByteString [0x00, 0x41, 0x42] ∧
    u16_bytes_to_u16 [0x00, 0x41, 0x42] = some (.ok [0x0041]) ∧
    u16_bytes_to_u16 [0xFE, 0xFF, 0x00, 0x41, 0x42] = some (.ok [0x0041]) ∧
    u32_bytes_to_u32 [0x00, 0x00, 0x00] = .error (.invalid_argument .invalid_length_utf32) := by
  refine ⟨by decide, ?_, ?_, ?_⟩
  · unfold u16_bytes_to_u16
    rw [if_neg (by decide), if_neg (by decide), if_neg (by decide)]
    rfl
  · unfold u16_bytes_to_u16
    rw [if_neg (by decide), if_neg (by decide), if_pos (by decide)]
    rfl
  · unfold u32_bytes_to_u32
    rw [if_pos (by decide)]

/-! ## C21: what the byte-buffer decoders return -/

theorem unit_of_two_bytes (a b : Nat) (ha : a < 0x100) (hb : b < 0x100) :
    ((a <<< 8) ||| b) % 0x10000 = a * 0x100 + b := by
  have k : 2 ^ 8 * a + b = 2 ^ 8 * a ||| b := Nat.mul_add_lt_is_or (by omega) a
  rw [Nat.shiftLeft_eq, Nat.mul_comm a (2 ^ 8), ← k]
  omega

theorem u16be_bytes_to_u16_arith (X : List Nat) (hX : IsByteString X) :
    u16be_bytes_to_u16 X =
      (List.range (X.length / 2)).map (fun i =>
        X.getD (2 * i) 0 * 0x100 + X.getD (2 * i + 1) 0) := by
  unfold u16be_bytes_to_u16
  apply List.map_congr_left
  intro i _
  rw [Nat.mul_comm i 2]
  exact unit_of_two_bytes _ _ (getD_lt_of_isByteString X hX _) (getD_lt_of_isByteString X hX _)

theorem isU16String_u16be_bytes_to_u16 (X : List Nat) : IsU16String (u16be_bytes_to_u16 X) := by
  intro u hu
  unfold u16be_bytes_to_u16 at hu
  rw [List.mem_map] at hu
  obtain ⟨i, -, rfl⟩ := hu
  exact Nat.mod_lt _ (by decide)

theorem isU16String_u16le_bytes_to_u16 (X : List Nat) (hX : IsByteString X) (S : List Nat)
    (h : u16le_bytes_to_u16 X = some S) : IsU16String S := by
  generalize hn : X.length = n
  induction n using Nat.strong_induction_on generalizing X S with
  | _ n ih =>
    match X, hX, h, hn with
    | [], _, h, _ => simp [u16le_bytes_to_u16] at h
    | [_], _, h, _ => simp [u16le_bytes_to_u16] at h
    | lo :: hi :: rest, hX, h, hn =>
      have hlo : lo < 0x100 := hX lo (by simp)
      have hhi : hi < 0x100 := hX hi (by simp)
      have hrest : IsByteString rest := fun c hc => hX c (by simp [hc])
      rw [u16le_bytes_to_u16] at h
      split_ifs at h with hz
      · cases h
        intro u hu
        cases hu
      · cases hr : u16le_bytes_to_u16 rest with
        | none => rw [hr] at h; cases h
        | some tail =>
          rw [hr] at h
          cases h
          have htail := ih rest.length (by simp at hn; omega) rest hrest tail hr rfl
          intro u hu
          rcases List.mem_cons.mp hu with rfl | hu
          · omega
          · exact htail u hu

theorem validate_u16_ok_iff (S : List Nat) : validate_u16 S = .ok () ↔ WellFormedUtf16 S := by
  constructor
  · intro h
    rcases validate_u16_cases S with ⟨_, h2⟩ | ⟨h1, _⟩ | ⟨h1, _⟩
    · exact h2
    · rw [h] at h1; cases h1
    · rw [h] at h1; cases h1
  · exact validate_u16_of_wellFormed S

/-- C21 as stated fails: the two bytes `D8 00` carry no BOM, `u16_bytes_to_u16` returns the
single unit `D800` for them, and `validate_u16` rejects that unit as a lone high surrogate;
the four bytes `00 11 00 00` have a length that is a multiple of 4, `u32_bytes_to_u32` returns
the unit `0x110000` for them, and `validate_u32` rejects it. -/
theorem byte_decoders_validate_counterexample :
    IsByteString [0xD8, 0x00] ∧
    u16_bytes_to_u16 [0xD8, 0x00] = some (.ok [0xD800]) ∧
    validate_u16 [0xD800] = .error (.invalid_argument .lone_high_surrogate) ∧
    IsByteString [0x00, 0x11, 0x00, 0x00] ∧
    u32_bytes_to_u32 [0x00, 0x11, 0x00, 0x00] = .ok [0x110000] ∧
    validate_u32 [0x110000] = .error (.invalid_argument .invalid_code_points) := by
  refine ⟨by decide, ?_, ?_, by decide, ?_, ?_⟩
  · unfold u16_bytes_to_u16
    rw [if_neg (by decide), if_neg (by decide), if_neg (by decide)]
    rfl
  · rw [validate_u16_cons, if_pos (by decide)]
  · unfold u32_bytes_to_u32
    rw [if_neg (by decide)]
    rfl
  · rw [validate_u32_eq, if_neg (by decide)]

/-- C21, amended: for every byte buffer `B` that carries no BOM, or the big-endian BOM, and
whose length after the BOM is a multiple of 2, `u16_bytes_to_u16 B` returns a sequence, and
`validate_u16` accepts that sequence if and only if the units `B[2i] * 256 + B[2i+1]` spelled
by the bytes after the BOM are well-formed UTF-16 (no lone surrogates); and for every `B`
whose length is a multiple of 4, `u32_bytes_to_u32 B` returns a sequence, and `validate_u32`
accepts it if and only if every group of four bytes has first byte `00` and second byte at
most `10` (no unit above `0x10FFFF`). -/
theorem byte_decoders_accepted_iff (B : List Nat) (hB : IsByteString B) :
    (is_start_with_bom_u8 B = false → is_start_with_bom_u16le B = false →
      is_start_with_bom_u16be B = false → B.length % 2 = 0 →
      ∃ S, u16_bytes_to_u16 B = some (.ok S) ∧
        (validate_u16 S = .ok () ↔ WellFormedUtf16 (big_endian_units B))) ∧
    (∀ rest, B = 0xFE :: 0xFF :: rest → rest.length % 2 = 0 →
      ∃ S, u16_bytes_to_u16 B = some (.ok S) ∧
        (validate_u16 S = .ok () ↔ WellFormedUtf16 (big_endian_units rest))) ∧
    (B.length % 4 = 0 →
      ∃ S, u32_bytes_to_u32 B = .ok S ∧
        (validate_u32 S = .ok () ↔
          ∀ i, i < B.length / 4 → B.getD (4 * i) 0 = 0 ∧ B.getD (4 * i + 1) 0 ≤ 0x10)) := by
  refine ⟨?_, ?_, ?_⟩
  · intro h1 h2 h3 _
    refine ⟨u16be_bytes_to_u16 B, ?_, ?_⟩
    · unfold u16_bytes_to_u16
      rw [h1, h2, h3]
      simp only [Bool.false_eq_true, if_false]
    · rw [validate_u16_ok_iff, u16be_bytes_to_u16_arith B hB]
      rfl
  · rintro rest rfl _
    have hrest : IsByteString rest := fun c hc => hB c (by simp [hc])
    refine ⟨u16be_bytes_to_u16 rest, ?_, ?_⟩
    · unfold u16_bytes_to_u16
      rw [if_neg (by simp [is_start_with_bom_u8, BOM_UTF8]),
        if_neg (by simp [is_start_with_bom_u16le, BOM_UTF16LE]),
        if_pos (by simp [is_start_with_bom_u16be, BOM_UTF16BE])]
      simp only [BOM_UTF16BE, List.length_cons, List.length_nil, List.drop_succ_cons,
        List.drop_zero]
    · rw [validate_u16_ok_iff, u16be_bytes_to_u16_arith rest hrest]
      rfl
  · intro hlen
    refine ⟨_, u32_bytes_to_u32_eq B hlen, ?_⟩
    rw [validate_u32_eq]
    have hval : ∀ i, ((B.getD (4 * i) 0 <<< 24) ||| (B.getD (4 * i + 1) 0 <<< 16) |||
        (B.getD (4 * i + 2) 0 <<< 8) ||| B.getD (4 * i + 3) 0) % 0x100000000 ≤ 0x10FFFF ↔
        B.getD (4 * i) 0 = 0 ∧ B.getD (4 * i + 1) 0 ≤ 0x10 := by
      intro i
      have h0 := getD_lt_of_isByteString B hB (4 * i)
      have h1 := getD_lt_of_isByteString B hB (4 * i + 1)
      have h2 := getD_lt_of_isByteString B hB (4 * i + 2)
      have h3 := getD_lt_of_isByteString B hB (4 * i + 3)
      rw [unit_of_four_bytes _ _ _ _ h0 h1 h2 h3]
      omega
    by_cases hall : ∀ i, i < B.length / 4 →
        B.getD (4 * i) 0 = 0 ∧ B.getD (4 * i + 1) 0 ≤ 0x10
    · rw [if_pos]
      · exact ⟨fun _ => hall, fun _ => rfl⟩
      · intro c hc
        rw [List.mem_map] at hc
        obtain ⟨i, hi, rfl⟩ := hc
        exact (hval i).mpr (hall i (List.mem_range.mp hi))
    · rw [if_neg]
      · exact ⟨fun h => (nomatch h), fun h => absurd h hall⟩
      · intro h
        apply hall
        intro i hi
        exact (hval i).mp (h _ (List.mem_map.mpr ⟨i, List.mem_range.mpr hi, rfl⟩))

/-- C21, amended, at the eight bytes of the test `u16_bytes_to_u16_Success`, which carry no
BOM and spell the well-formed units `0041 3042 D83D DE00`: the decoder returns a sequence and
`validate_u16` accepts it. -/
theorem byte_decoders_accepted_iff_witness :
    IsByteString [0x00, 0x41, 0x30, 0x42, 0xD8, 0x3D, 0xDE, 0x00] ∧
    ∃ S, u16_bytes_to_u16 [0x00, 0x41, 0x30, 0x42, 0xD8, 0x3D, 0xDE, 0x00] = some (.ok S) ∧
      validate_u16 S = .ok () :=
  ⟨by decide,
    match (byte_decoders_accepted_iff [0x00, 0x41, 0x30, 0x42, 0xD8, 0x3D, 0xDE, 0x00]
      (by decide)).1 (by decide) (by decide) (by decide) (by decide) with
    | ⟨S, h1, h2⟩ =>
      ⟨S, h1, h2.mpr
        (wellFormedUtf16_single 0x41 _ (by decide) (by decide)
          (wellFormedUtf16_single 0x3042 _ (by decide) (by decide)
            (wellFormedUtf16_pair 0xD83D 0xDE00 _ (by decide) (by decide)
              wellFormedUtf16_nil)))⟩⟩

end bene
